import Mathlib

/-! # Verification of the simplecalc expression evaluator

Shallow embedding of the Rust sources `tokenizer.rs`, `lexer.rs` and `lib.rs`.
Strings are modelled as `List Char` (Unicode scalar values, as Rust `char`);
byte-level slicing of the UTF-8 encoding is modelled explicitly so that the
panic behaviour of `&input[start..end]` on non-boundary indices is captured:
an outer `Option` layer is `none` exactly when the Rust code would panic.

Numeric values (Rust `f64`) are modelled as `ℚ`.  All computations exercised
by the claims stay inside the fragment where `f64` arithmetic is exact
(small integers and dyadic fractions), so the model agrees with the code
there; `powf` is modelled exactly for integer exponents, the only exponents a
claim evaluates.
-/

namespace SimpleCalc

/-- Rust `char::is_digit(10)`: true exactly for the ASCII digits `0`-`9`. -/
def rustIsDigit (c : Char) : Bool := 48 ≤ c.toNat && c.toNat ≤ 57

/-- Rust `char::is_whitespace`: the Unicode `White_Space` code points. -/
def rustIsWhitespace (c : Char) : Bool :=
  c.toNat == 9 || c.toNat == 10 || c.toNat == 11 || c.toNat == 12 || c.toNat == 13 ||
  c.toNat == 32 || c.toNat == 133 || c.toNat == 160 || c.toNat == 5760 ||
  (8192 ≤ c.toNat && c.toNat ≤ 8202) || c.toNat == 8232 || c.toNat == 8233 ||
  c.toNat == 8239 || c.toNat == 8287 || c.toNat == 12288

/-- Total number of bytes of the UTF-8 encoding of a character list
(Rust `str::len`). -/
def utf8Len (l : List Char) : Nat := (l.map Char.utf8Size).sum

/-- Drop the first `n` bytes of the UTF-8 encoding; `none` when `n` is not a
character boundary (Rust would panic slicing there). -/
def dropBytes : List Char → Nat → Option (List Char)
  | l, 0 => some l
  | [], _ + 1 => none
  | c :: cs, n + 1 =>
    if c.utf8Size ≤ n + 1 then dropBytes cs (n + 1 - c.utf8Size) else none

/-- Take the first `n` bytes of the UTF-8 encoding; `none` when `n` is not a
character boundary or exceeds the length. -/
def takeBytes : List Char → Nat → Option (List Char)
  | _, 0 => some []
  | [], _ + 1 => none
  | c :: cs, n + 1 =>
    if c.utf8Size ≤ n + 1 then (takeBytes cs (n + 1 - c.utf8Size)).map (c :: ·) else none

/-- Rust byte slicing `&input[s..t]`: `none` models the boundary/range panic. -/
def byteSlice (l : List Char) (s t : Nat) : Option (List Char) :=
  if s ≤ t then (dropBytes l s).bind (fun r => takeBytes r (t - s)) else none

/-! ## tokenizer.rs -/

/-- `Token` from `tokenizer.rs`; the borrowed `&str` slices are carried as
character lists. -/
inductive Token
  | Number (s : List Char)
  | Operator (s : List Char)
  | Whitespace (s : List Char)
  | ParOpen
  | ParClose
  | End
deriving DecidableEq, Repr

/-- `TokenizerState` from `tokenizer.rs`. -/
inductive TokenizerState
  | Initial
  | ParseNumber
  | ParseOperator
  | ParseWhitespace
  | ParOpen (pos : Nat)
  | ParClose (pos : Nat)
deriving DecidableEq, Repr

/-- `Error` from `lib.rs`.  `TokenizerError` is modelled with the two fields
`(position, character)` used at its construction site `tokenizer.rs:37`
(the declaration in `lib.rs:12` gives it a single `usize` field — see C9);
the `ParseFloatError` payload of `ParseNumberError` is dropped. -/
inductive Error
  | TokenizerError (pos : Nat) (ch : Char)
  | LexerError (pos : Nat)
  | ParseNumberError
  | ParseOperatorError (op : List Char)
  | EvalError
deriving DecidableEq, Repr

/-- The operator characters recognised by the tokenizer. -/
def isOpChar (c : Char) : Bool := c == '+' || c == '-' || c == '*' || c == '/'

/-- The `match ch` in `tokenize` (`tokenizer.rs:31-38`) computing `next_state`,
in source order of the arms. -/
def classify (pos : Nat) (ch : Char) : Except Error TokenizerState :=
  if rustIsDigit ch || ch == '.' then .ok .ParseNumber
  else if rustIsWhitespace ch then .ok .ParseWhitespace
  else if isOpChar ch then .ok .ParseOperator
  else if ch == '(' then .ok (.ParOpen pos)
  else if ch == ')' then .ok (.ParClose pos)
  else .error (.TokenizerError pos ch)

/-- `yield_token` from `tokenizer.rs:58-72`.  The outer `Option` is `none`
when the byte slice `&input[start..end]` panics. -/
def yield_token (st : TokenizerState) (input : List Char) (s t : Nat) :
    Option (Option Token) :=
  match st with
  | .Initial => some none
  | .ParseNumber => (byteSlice input s t).map (fun sl => some (.Number sl))
  | .ParseOperator => (byteSlice input s t).map (fun sl => some (.Operator sl))
  | .ParseWhitespace => (byteSlice input s t).map (fun sl => some (.Whitespace sl))
  | .ParOpen _ => some (some .ParOpen)
  | .ParClose _ => some (some .ParClose)

/-- The `for (pos, ch) in input.chars().enumerate()` loop of `tokenize`,
followed by the final `yield_token` at `input.len()` (bytes) and the `End`
marker.  `rest` is the unprocessed suffix of `input` starting at character
index `pos`.  `none` models a panic. -/
def tokenizeLoop (input : List Char) :
    List Char → Nat → TokenizerState → Nat → List Token →
    Option (Except Error (List Token))
  | [], _, state, token_start, tokens =>
    match yield_token state input token_start (utf8Len input) with
    | none => none
    | some o => some (.ok ((tokens ++ o.toList) ++ [.End]))
  | ch :: rest, pos, state, token_start, tokens =>
    match classify pos ch with
    | .error e => some (.error e)
    | .ok next_state =>
      if next_state ≠ state then
        match yield_token state input token_start pos with
        | none => none
        | some o => tokenizeLoop input rest (pos + 1) next_state pos (tokens ++ o.toList)
      else
        tokenizeLoop input rest (pos + 1) state token_start tokens

/-- `tokenize` from `tokenizer.rs:25-56`. -/
def tokenize (input : List Char) : Option (Except Error (List Token)) :=
  tokenizeLoop input input 0 .Initial 0 []

/-! ## lexer.rs -/

/-- `Operator` from `lexer.rs`. -/
inductive Operator
  | Add
  | Sub
  | Mul
  | Div
  | Pow
deriving DecidableEq, Repr

/-- `Operator::priority` from `lexer.rs:24-32`. -/
def Operator.priority : Operator → Nat
  | .Add => 0
  | .Sub => 0
  | .Mul => 1
  | .Div => 1
  | .Pow => 2

/-- `Lexem` from `lexer.rs`. -/
inductive Lexem
  | Number (q : ℚ)
  | Operator (op : Operator)
  | ParOpen
  | ParClose
deriving DecidableEq, Repr

/-- `LexerState` from `lexer.rs:38-46`. -/
inductive LexerState
  | Initial
  | LeadingSign (sign : ℚ)
  | Number (val : List Char) (sign : ℚ)
  | Operator (op : List Char)
  | ParOpen
  | ParClose
  | End
deriving DecidableEq, Repr

/-- Numeric value of a digit character. -/
def digitVal (c : Char) : Nat := c.toNat - 48

/-- Value of a digit run as a natural number. -/
def intOfDigits (l : List Char) : Nat := l.foldl (fun a c => 10 * a + digitVal c) 0

/-- Rust `str::parse::<f64>()` restricted to the digit/dot alphabet the
tokenizer produces for `Token::Number` runs: succeeds on a non-empty run
with at least one digit and at most one dot (so `"1"`, `"43.5"`, `".7"`,
`"1."` parse and `""`, `"."`, `"8.8.10"` fail), with the exact rational
value.  Content outside this alphabet is conservatively rejected. -/
def parseF64 (s : List Char) : Option ℚ :=
  if s.all (fun c => rustIsDigit c || c == '.') && s.countP (fun c => c == '.') ≤ 1 &&
      s.any rustIsDigit then
    some
      (let ip := s.takeWhile (fun c => c ≠ '.')
       let rest := s.dropWhile (fun c => c ≠ '.')
       match rest with
       | [] => (intOfDigits ip : ℚ)
       | _ :: fp => (intOfDigits ip : ℚ) + (intOfDigits fp : ℚ) / (10 ^ fp.length))
  else none

/-- The `match op` at `lexer.rs:93-100` classifying an operator run. -/
def classifyOp (op : List Char) : Option Operator :=
  if op = ['+'] then some .Add
  else if op = ['-'] then some .Sub
  else if op = ['*'] then some .Mul
  else if op = ['/'] then some .Div
  else if op = ['*', '*'] then some .Pow
  else none

/-- The sign captured for a leading `+`/`-` (`lexer.rs:59`). -/
def signOf (op : List Char) : ℚ := if op = ['-'] then -1 else 1

/-- Outcome of one iteration of the `parse` loop of `lexer.rs:53-141` on the
current `(state, token)` pair: emit `push`, add `dp` to the paren counter
and move to state `s`; or fail with `LexerError` at the current token index
(`failAt`); or fail with a position-free error (`failWith`). -/
inductive LexOut
  | next (push : List Lexem) (dp : Int) (s : LexerState)
  | failAt
  | failWith (e : Error)
deriving DecidableEq, Repr

/-- One iteration of the `parse` loop (`lexer.rs:54-140`), written as a pure
step function.  The whitespace arms of the `Number` and `Operator` states
reproduce the source exactly: there the `if let Token::Whitespace` statement
constructs a state value and discards it (no `continue`), so whitespace
falls through to the catch-all arm and fails.  The `continue` of the
`ParOpen`/`ParClose` whitespace arms is `next [] 0` at the same state.
Pushes performed by the source before an early `return Err` are dropped, as
the error return discards the lexem buffer. -/
def lexStep : LexerState → Token → LexOut
  | .Initial, .Whitespace _ => .next [] 0 .Initial
  | .Initial, .Number v => .next [] 0 (.Number v 1)
  | .Initial, .Operator op =>
    if op = ['+'] ∨ op = ['-'] then .next [] 0 (.LeadingSign (signOf op)) else .failAt
  | .Initial, .ParOpen => .next [] 0 .ParOpen
  | .Initial, _ => .failAt
  | .LeadingSign sg, .Number v => .next [] 0 (.Number v sg)
  | .LeadingSign sg, .ParOpen => .next [.Number sg, .Operator .Mul] 0 .ParOpen
  | .LeadingSign _, _ => .failAt
  | .Number v sg, t =>
    match parseF64 v with
    | none => .failWith .ParseNumberError
    | some num =>
      match t with
      | .Operator op => .next [.Number (num * sg)] 0 (.Operator op)
      | .ParClose => .next [.Number (num * sg)] 0 .ParClose
      | .End => .next [.Number (num * sg)] 0 .End
      | _ => .failAt
  | .Operator op, t =>
    match classifyOp op with
    | none => .failWith (.ParseOperatorError op)
    | some o =>
      match t with
      | .Number v => .next [.Operator o] 0 (.Number v 1)
      | .ParOpen => .next [.Operator o] 0 .ParOpen
      | _ => .failAt
  | .ParOpen, .Whitespace _ => .next [] 0 .ParOpen
  | .ParOpen, .Operator op =>
    if op = ['+'] ∨ op = ['-'] then .next [.ParOpen] 1 (.LeadingSign (signOf op))
    else .failAt
  | .ParOpen, .Number v => .next [.ParOpen] 1 (.Number v 1)
  | .ParOpen, .ParOpen => .next [.ParOpen] 1 .ParOpen
  | .ParOpen, _ => .failAt
  | .ParClose, .Whitespace _ => .next [] 0 .ParClose
  | .ParClose, .Operator op => .next [.ParClose] (-1) (.Operator op)
  | .ParClose, .ParClose => .next [.ParClose] (-1) .ParClose
  | .ParClose, .End => .next [.ParClose] (-1) .End
  | .ParClose, _ => .failAt
  | .End, _ => .failAt

/-- The `for (pos, token) in tokens.iter().enumerate()` loop of `parse`,
returning the lexem buffer, final state and paren counter. -/
def parseLoop : List Token → Nat → LexerState → Int → List Lexem →
    Except Error (List Lexem × LexerState × Int)
  | [], _, st, p, lex => .ok (lex, st, p)
  | t :: rest, pos, st, p, lex =>
    match lexStep st t with
    | .failAt => .error (.LexerError pos)
    | .failWith e => .error e
    | .next push dp s => parseLoop rest (pos + 1) s (p + dp) (lex ++ push)

/-- `parse` from `lexer.rs:48-148`, including the final
`state != End || pars != 0` check at `lexer.rs:143-147`. -/
def parse (tokens : List Token) : Except Error (List Lexem) :=
  match parseLoop tokens 0 .Initial 0 [] with
  | .error e => .error e
  | .ok (lex, st, p) =>
    if st = .End ∧ p = 0 then .ok lex else .error (.LexerError tokens.length)

/-! ## lib.rs -/

/-- Rust `f64::powf`, modelled exactly on integer exponents (the only
exponents the claims evaluate); non-integer exponents are outside the
exact-rational fragment and are mapped to `0`. -/
def powf (a b : ℚ) : ℚ := if b.den = 1 then a ^ b.num else 0

/-- The operator application of the evaluator loop (`lib.rs:35-41`),
`a` popped second, `b` popped first (top of stack). -/
def applyOp : Operator → ℚ → ℚ → ℚ
  | .Add, a, b => a + b
  | .Sub, a, b => a - b
  | .Mul, a, b => a * b
  | .Div, a, b => a / b
  | .Pow, a, b => powf a b

/-- The `while let Some(Lexem::Operator(cur)) = stack.last()` loop of
`postfix_repr` (`lib.rs:59-65`): pop operators of priority `≥ op.priority`
into the output; stop at a non-operator or lower priority.  The stack list
has its head as top.  Returns `(popped output, remaining stack)`. -/
def popGE (op : Operator) : List Lexem → List Lexem × List Lexem
  | [] => ([], [])
  | .Operator cur :: rest =>
    if op.priority ≤ cur.priority then
      let r := popGE op rest
      (.Operator cur :: r.1, r.2)
    else ([], .Operator cur :: rest)
  | stack => ([], stack)

/-- The `while let Some(top) = stack.pop()` loop of `postfix_repr`
(`lib.rs:71-77`): pop into the output until a `ParOpen` is popped (and
discarded) or the stack empties. -/
def popToParen : List Lexem → List Lexem × List Lexem
  | [] => ([], [])
  | .ParOpen :: rest => ([], rest)
  | x :: rest =>
    let r := popToParen rest
    (x :: r.1, r.2)

/-- The main loop of `postfix_repr` (`lib.rs:55-80`) over the infix lexems,
threading the output and the operator stack (head = top). -/
def shunt : List Lexem → List Lexem → List Lexem → List Lexem × List Lexem
  | [], stack, out => (out, stack)
  | .Number n :: r, stack, out => shunt r stack (out ++ [.Number n])
  | .Operator op :: r, stack, out =>
    let p := popGE op stack
    shunt r (.Operator op :: p.2) (out ++ p.1)
  | .ParOpen :: r, stack, out => shunt r (.ParOpen :: stack) out
  | .ParClose :: r, stack, out =>
    let p := popToParen stack
    shunt r p.2 (out ++ p.1)

/-- `postfix_repr` from `lib.rs:52-87`: run the shunting loop, then flush the
remaining stack onto the output (`lib.rs:82-84`; popping appends the stack
list in order, head = top first). -/
def rpnRepr (infixL : List Lexem) : List Lexem :=
  let p := shunt infixL [] []
  p.1 ++ p.2

/-- The evaluation loop of `eval` (`lib.rs:29-46`) over the converted
sequence, threading the operand stack (head = top). -/
def evalLoop : List Lexem → List ℚ → Except Error (List ℚ)
  | [], stack => .ok stack
  | .Number n :: rest, stack => evalLoop rest (n :: stack)
  | .Operator op :: rest, stack =>
    match stack with
    | b :: a :: s => evalLoop rest (applyOp op a b :: s)
    | _ => .error .EvalError
  | .ParOpen :: _, _ => .error .EvalError
  | .ParClose :: _, _ => .error .EvalError

/-- The evaluator stage of `eval` (`lib.rs:27-49`): run the loop from an
empty stack, then return `*stack.last()` — the top of the stack — or
`EvalError` when the stack is empty (`lib.rs:48`). -/
def evalRpn (seq : List Lexem) : Except Error ℚ :=
  match evalLoop seq [] with
  | .error e => .error e
  | .ok stack =>
    match stack.head? with
    | none => .error .EvalError
    | some v => .ok v

/-- `eval` from `lib.rs:23-50`: the full pipeline.  `none` models a panic
(which can only originate in the tokenizer's byte slicing). -/
def eval (expr : List Char) : Option (Except Error ℚ) :=
  match tokenize expr with
  | none => none
  | some (.error e) => some (.error e)
  | some (.ok tokens) =>
    match parse tokens with
    | .error e => some (.error e)
    | .ok lexems => some (evalRpn (rpnRepr lexems))

/-! ## Specification-side definitions

These follow the spec's words, for comparison with the source-derived
definitions above. -/

/-- Number of `ParOpen` lexems. -/
def countPO (l : List Lexem) : Nat := l.countP (fun x => x = Lexem.ParOpen)

/-- Number of `ParClose` lexems. -/
def countPC (l : List Lexem) : Nat := l.countP (fun x => x = Lexem.ParClose)

/-- Properly nested, balanced parentheses: scanning left to right the depth
never drops below zero and ends at zero. -/
def parenScan : List Lexem → Int → Bool
  | [], d => d == 0
  | .ParOpen :: r, d => parenScan r (d + 1)
  | .ParClose :: r, d => (0 < d) && parenScan r (d - 1)
  | _ :: r, d => parenScan r d

/-- A lexical sequence has properly nested, balanced parentheses. -/
def properlyNested (l : List Lexem) : Bool := parenScan l 0

/-- Modelled from the spec (§4.4, claim C8): the evaluator stage fails
exactly when an operator item finds fewer than two operands on the stack, a
parenthesis marker occurs in the sequence, or the stack is empty after
consuming the whole sequence.  `n` is the current operand-stack height. -/
def evalFailsSpec : List Lexem → Nat → Bool
  | [], n => n == 0
  | .Number _ :: r, n => evalFailsSpec r (n + 1)
  | .Operator _ :: r, n => n < 2 || evalFailsSpec r (n - 1)
  | .ParOpen :: _, _ => true
  | .ParClose :: _, _ => true

deriving instance DecidableEq for Except

/-- The characters accepted by the tokenizer's `match ch`. -/
def validChar (c : Char) : Bool :=
  rustIsDigit c || c == '.' || rustIsWhitespace c || isOpChar c || c == '(' || c == ')'

/-- Shift the position recorded in a tokenizer paren state by one; used to
relate the run on `e` with the run on `'(' :: e ++ [')']`. -/
def shiftState : TokenizerState → TokenizerState
  | .ParOpen k => .ParOpen (k + 1)
  | .ParClose k => .ParClose (k + 1)
  | s => s

/-- The positions recorded in a tokenizer paren state are below `pos`. -/
def stBound (st : TokenizerState) (pos : Nat) : Prop :=
  ∀ k, st = .ParOpen k ∨ st = .ParClose k → k < pos

/-- Mirror of the shunting loop recording whether every `ParClose` finds a
`ParOpen` marker on the stack (rather than emptying it). -/
def shuntOK : List Lexem → List Lexem → Bool
  | [], _ => true
  | .Number _ :: r, stack => shuntOK r stack
  | .Operator op :: r, stack => shuntOK r (.Operator op :: (popGE op stack).2)
  | .ParOpen :: r, stack => shuntOK r (.ParOpen :: stack)
  | .ParClose :: r, stack =>
    decide (Lexem.ParOpen ∈ stack) && shuntOK r (popToParen stack).2

/-! ## Byte-slicing lemmas -/

theorem dropBytes_zero (l : List Char) : dropBytes l 0 = some l := by
  cases l <;> rfl

theorem takeBytes_zero (l : List Char) : takeBytes l 0 = some [] := by
  cases l <;> rfl

theorem dropBytes_cons_one {c : Char} (h : c.utf8Size = 1) (l : List Char) (s : Nat) :
    dropBytes (c :: l) (s + 1) = dropBytes l s := by
  simp [dropBytes, h]

theorem byteSlice_cons_one {c : Char} (h : c.utf8Size = 1) (l : List Char) (s t : Nat) :
    byteSlice (c :: l) (s + 1) (t + 1) = byteSlice l s t := by
  unfold byteSlice
  rcases le_or_lt s t with hle | hlt
  · rw [if_pos (Nat.succ_le_succ hle), if_pos hle, dropBytes_cons_one h]
    have h1 : t + 1 - (s + 1) = t - s := by omega
    rw [h1]
  · rw [if_neg (by omega), if_neg (by omega)]

theorem dropBytes_append_of_some {l m r : List Char} {s : Nat}
    (h : dropBytes l s = some r) : dropBytes (l ++ m) s = some (r ++ m) := by
  induction l generalizing s with
  | nil =>
    cases s with
    | zero =>
      rw [dropBytes_zero] at h
      injection h with h
      subst h
      rw [dropBytes_zero]
    | succ n => exact absurd h (by rw [dropBytes]; simp)
  | cons c cs ih =>
    cases s with
    | zero =>
      rw [dropBytes_zero] at h
      injection h with h
      subst h
      rw [dropBytes_zero]
    | succ n =>
      rw [dropBytes] at h
      rw [List.cons_append, dropBytes]
      split at h
      · rename_i hsz
        rw [if_pos hsz]
        exact ih h
      · exact absurd h (by simp)

theorem takeBytes_append_of_some {l m r : List Char} {n : Nat}
    (h : takeBytes l n = some r) : takeBytes (l ++ m) n = some r := by
  induction l generalizing n r with
  | nil =>
    cases n with
    | zero =>
      rw [takeBytes_zero] at h
      injection h with h
      subst h
      rw [takeBytes_zero]
    | succ k => exact absurd h (by rw [takeBytes]; simp)
  | cons c cs ih =>
    cases n with
    | zero =>
      rw [takeBytes_zero] at h
      injection h with h
      subst h
      rw [takeBytes_zero]
    | succ k =>
      rw [takeBytes] at h
      rw [List.cons_append, takeBytes]
      split at h
      · rename_i hsz
        rw [if_pos hsz]
        rcases Option.map_eq_some'.mp h with ⟨r', hr', rfl⟩
        rw [ih hr']
        rfl
      · exact absurd h (by simp)

theorem byteSlice_append_of_some {l m r : List Char} {s t : Nat}
    (h : byteSlice l s t = some r) : byteSlice (l ++ m) s t = some r := by
  unfold byteSlice at h ⊢
  split at h
  · rcases Option.bind_eq_some.mp h with ⟨d, hd, ht⟩
    rename_i hst
    rw [if_pos hst, dropBytes_append_of_some hd]
    exact Option.bind_eq_some.mpr ⟨d ++ m, rfl, takeBytes_append_of_some ht⟩
  · exact absurd h (by simp)

theorem dropBytes_of_prefix_one {l : List Char} {s : Nat}
    (h : ∀ c ∈ l.take s, c.utf8Size = 1) (hs : s ≤ l.length) :
    dropBytes l s = some (l.drop s) := by
  induction s generalizing l with
  | zero => simp [dropBytes]
  | succ n ih =>
    cases l with
    | nil => simp at hs
    | cons c cs =>
      have hc : c.utf8Size = 1 := h c (by simp)
      rw [dropBytes_cons_one hc, List.drop_succ_cons]
      exact ih (fun d hd => h d (by simp [List.take_succ_cons, hd]))
        (Nat.le_of_succ_le_succ hs)

theorem takeBytes_of_prefix_one {l : List Char} {n : Nat}
    (h : ∀ c ∈ l.take n, c.utf8Size = 1) (hn : n ≤ l.length) :
    takeBytes l n = some (l.take n) := by
  induction n generalizing l with
  | zero => simp [takeBytes]
  | succ k ih =>
    cases l with
    | nil => simp at hn
    | cons c cs =>
      have hc : c.utf8Size = 1 := h c (by simp)
      rw [takeBytes, if_pos (by omega)]
      rw [hc, Nat.add_sub_cancel,
        ih (fun d hd => h d (by simp [List.take_succ_cons, hd])) (Nat.le_of_succ_le_succ hn)]
      simp [List.take_succ_cons]

theorem take_sub_take {l : List Char} {s t : Nat} (hst : s ≤ t) :
    l.take s ⊆ l.take t := by
  intro x hx
  have h1 : l.take s = (l.take t).take s := by
    rw [List.take_take, Nat.min_eq_left hst]
  rw [h1] at hx
  exact List.take_subset _ _ hx

theorem byteSlice_of_prefix_one {l : List Char} {s t : Nat}
    (h : ∀ c ∈ l.take t, c.utf8Size = 1) (hst : s ≤ t) (ht : t ≤ l.length) :
    byteSlice l s t = some ((l.drop s).take (t - s)) := by
  unfold byteSlice
  rw [if_pos hst]
  rw [dropBytes_of_prefix_one (fun c hc => h c (take_sub_take hst hc))
    (le_trans hst ht)]
  refine Option.bind_eq_some.mpr ⟨l.drop s, rfl, ?_⟩
  refine takeBytes_of_prefix_one ?_ (by rw [List.length_drop]; omega)
  intro c hc
  refine h c ?_
  have h1 : (l.drop s).take (t - s) = (l.take t).drop s := by
    rw [List.drop_take]
  rw [h1] at hc
  exact List.drop_subset _ _ hc

theorem takeBytes_full (l : List Char) : takeBytes l (utf8Len l) = some l := by
  induction l with
  | nil => rfl
  | cons c cs ih =>
    have hc : 0 < c.utf8Size := Char.utf8Size_pos c
    have hlen : utf8Len (c :: cs) = (c.utf8Size - 1 + utf8Len cs) + 1 := by
      have h1 : utf8Len (c :: cs) = c.utf8Size + utf8Len cs := by simp [utf8Len]
      omega
    rw [hlen, takeBytes, if_pos (by omega)]
    have h2 : c.utf8Size - 1 + utf8Len cs + 1 - c.utf8Size = utf8Len cs := by omega
    rw [h2, ih]
    rfl

theorem byteSlice_full (l : List Char) : byteSlice l 0 (utf8Len l) = some l := by
  unfold byteSlice
  rw [if_pos (Nat.zero_le _)]
  rw [dropBytes_zero]
  simpa using takeBytes_full l

theorem utf8Len_of_one {l : List Char} (h : ∀ c ∈ l, c.utf8Size = 1) :
    utf8Len l = l.length := by
  induction l with
  | nil => rfl
  | cons c cs ih =>
    have h1 : utf8Len (c :: cs) = c.utf8Size + utf8Len cs := by simp [utf8Len]
    rw [h1, h c (by simp), ih (fun d hd => h d (by simp [hd])), List.length_cons]
    omega

/-! ## Tokenizer lemmas -/

theorem tokenizeLoop_nil (input : List Char) (pos : Nat) (st : TokenizerState)
    (start : Nat) (toks : List Token) :
    tokenizeLoop input [] pos st start toks =
      match yield_token st input start (utf8Len input) with
      | none => none
      | some o => some (.ok ((toks ++ o.toList) ++ [.End])) := rfl

theorem tokenizeLoop_cons (input : List Char) (ch : Char) (rest : List Char)
    (pos : Nat) (st : TokenizerState) (start : Nat) (toks : List Token) :
    tokenizeLoop input (ch :: rest) pos st start toks =
      match classify pos ch with
      | .error e => some (.error e)
      | .ok next_state =>
        if next_state ≠ st then
          match yield_token st input start pos with
          | none => none
          | some o => tokenizeLoop input rest (pos + 1) next_state pos (toks ++ o.toList)
        else tokenizeLoop input rest (pos + 1) st start toks := rfl

theorem classify_ne_initial {pos : Nat} {ch : Char} {s : TokenizerState}
    (h : classify pos ch = .ok s) : s ≠ .Initial := by
  unfold classify at h
  split_ifs at h <;> first
    | exact Except.noConfusion h
    | (cases h; simp)

theorem classify_succ_ok {pos : Nat} {ch : Char} {s : TokenizerState}
    (h : classify pos ch = .ok s) : classify (pos + 1) ch = .ok (shiftState s) := by
  unfold classify at h ⊢
  split_ifs at h ⊢ <;> first
    | exact Except.noConfusion h
    | (cases h; rfl)

theorem classify_bound {pos : Nat} {ch : Char} {s : TokenizerState}
    (h : classify pos ch = .ok s) : stBound s (pos + 1) := by
  unfold classify at h
  split_ifs at h <;> first
    | exact Except.noConfusion h
    | (cases h; intro k hk; rcases hk with hk | hk <;> first
        | exact TokenizerState.noConfusion hk
        | (cases hk; omega))

theorem stBound_mono {st : TokenizerState} {pos pos' : Nat}
    (h : stBound st pos) (hle : pos ≤ pos') : stBound st pos' :=
  fun k hk => Nat.lt_of_lt_of_le (h k hk) hle

theorem shiftState_inj {a b : TokenizerState} (h : shiftState a = shiftState b) :
    a = b := by
  cases a <;> cases b <;> simp_all [shiftState]

theorem tokenizeLoop_acc (input : List Char) (rest : List Char) :
    ∀ pos st start toks,
    tokenizeLoop input rest pos st start toks =
      match tokenizeLoop input rest pos st start [] with
      | none => none
      | some (.error e) => some (.error e)
      | some (.ok tail) => some (.ok (toks ++ tail)) := by
  induction rest with
  | nil =>
    intro pos st start toks
    rw [tokenizeLoop, tokenizeLoop]
    cases yield_token st input start (utf8Len input) with
    | none => rfl
    | some o => simp
  | cons ch rest ih =>
    intro pos st start toks
    rw [tokenizeLoop, tokenizeLoop]
    cases hc : classify pos ch with
    | error e => rfl
    | ok next =>
      simp only
      by_cases hne : next = st
      · rw [if_neg (not_not_intro hne), if_neg (not_not_intro hne)]
        exact ih (pos + 1) st start toks
      · rw [if_pos hne, if_pos hne]
        cases hy : yield_token st input start pos with
        | none => rfl
        | some o =>
          simp only []
          rw [ih (pos + 1) next pos (toks ++ o.toList), ih (pos + 1) next pos ([] ++ o.toList)]
          cases hres : tokenizeLoop input rest (pos + 1) next pos [] with
          | none => rfl
          | some r => cases r <;> simp

theorem tokenizeLoop_ends (input : List Char) (rest : List Char) :
    ∀ pos st start ts, tokenizeLoop input rest pos st start [] = some (.ok ts) →
      ∃ body, ts = body ++ [Token.End] := by
  induction rest with
  | nil =>
    intro pos st start ts h
    rw [tokenizeLoop] at h
    cases hy : yield_token st input start (utf8Len input) with
    | none => rw [hy] at h; exact absurd h (by simp)
    | some o =>
      rw [hy] at h
      simp only [Option.some.injEq, Except.ok.injEq] at h
      exact ⟨[] ++ o.toList, h.symm⟩
  | cons ch rest ih =>
    intro pos st start ts h
    rw [tokenizeLoop] at h
    cases hc : classify pos ch with
    | error e => rw [hc] at h; exact absurd h (by simp)
    | ok next =>
      rw [hc] at h
      simp only at h
      by_cases hne : next = st
      · rw [if_neg (not_not_intro hne)] at h
        exact ih (pos + 1) st start ts h
      · rw [if_pos hne] at h
        cases hy : yield_token st input start pos with
        | none => rw [hy] at h; exact absurd h (by simp)
        | some o =>
          rw [hy] at h
          simp only [] at h
          rw [tokenizeLoop_acc] at h
          cases hres : tokenizeLoop input rest (pos + 1) next pos [] with
          | none => rw [hres] at h; exact absurd h (by simp)
          | some r =>
            rw [hres] at h
            cases r with
            | error e => exact absurd h (by simp)
            | ok tail =>
              simp only [Option.some.injEq, Except.ok.injEq] at h
              rcases ih (pos + 1) next pos tail hres with ⟨body, rfl⟩
              exact ⟨o.toList ++ body, by rw [← h]; simp⟩

theorem utf8Size_lparen : ('(' : Char).utf8Size = 1 := by decide

theorem classify_rparen (p : Nat) : classify p ')' = .ok (.ParClose p) := rfl

theorem classify_lparen (p : Nat) : classify p '(' = .ok (.ParOpen p) := rfl

theorem yield_shift {e : List Char} {st : TokenizerState} {s t : Nat} {o : Option Token}
    (h : yield_token st e s t = some o) :
    yield_token (shiftState st) ('(' :: e ++ [')']) (s + 1) (t + 1) = some o := by
  cases st with
  | Initial => exact h
  | ParOpen k => exact h
  | ParClose k => exact h
  | ParseNumber =>
    simp only [yield_token, shiftState] at h ⊢
    rcases Option.map_eq_some'.mp h with ⟨r, hr, rfl⟩
    rw [show ('(' :: e ++ [')'] : List Char) = '(' :: (e ++ [')']) by simp,
      byteSlice_cons_one utf8Size_lparen, byteSlice_append_of_some hr]
    rfl
  | ParseOperator =>
    simp only [yield_token, shiftState] at h ⊢
    rcases Option.map_eq_some'.mp h with ⟨r, hr, rfl⟩
    rw [show ('(' :: e ++ [')'] : List Char) = '(' :: (e ++ [')']) by simp,
      byteSlice_cons_one utf8Size_lparen, byteSlice_append_of_some hr]
    rfl
  | ParseWhitespace =>
    simp only [yield_token, shiftState] at h ⊢
    rcases Option.map_eq_some'.mp h with ⟨r, hr, rfl⟩
    rw [show ('(' :: e ++ [')'] : List Char) = '(' :: (e ++ [')']) by simp,
      byteSlice_cons_one utf8Size_lparen, byteSlice_append_of_some hr]
    rfl

theorem tokenizeLoop_wrap (e : List Char) (hA : ∀ c ∈ e, c.utf8Size = 1)
    (rest : List Char) :
    ∀ pos st start tail,
      pos + rest.length = e.length →
      st ≠ .Initial →
      stBound st pos →
      tokenizeLoop e rest pos st start [] = some (.ok tail) →
      tokenizeLoop ('(' :: e ++ [')']) (rest ++ [')']) (pos + 1) (shiftState st) (start + 1) []
        = some (.ok (tail.dropLast ++ [.ParClose, .End])) := by
  induction rest with
  | nil =>
    intro pos st start tail hlen hni hbd h
    have hpos : pos = e.length := by simpa using hlen
    have hulen : utf8Len e = e.length := utf8Len_of_one hA
    rw [tokenizeLoop] at h
    cases hy : yield_token st e start (utf8Len e) with
    | none => rw [hy] at h; exact absurd h (by simp)
    | some o =>
      rw [hy] at h
      simp only [Option.some.injEq, Except.ok.injEq] at h
      have hy' : yield_token st e start pos = some o := by
        rw [hpos, ← hulen]; exact hy
      have hne2 : TokenizerState.ParClose (pos + 1) ≠ shiftState st := by
        cases st with
        | Initial => simp [shiftState]
        | ParseNumber => simp [shiftState]
        | ParseOperator => simp [shiftState]
        | ParseWhitespace => simp [shiftState]
        | ParOpen k => simp [shiftState]
        | ParClose k =>
          have hk : k < pos := hbd k (Or.inr rfl)
          simp only [shiftState, ne_eq, TokenizerState.ParClose.injEq]
          omega
      rw [List.nil_append, tokenizeLoop, classify_rparen]
      simp only []
      rw [if_pos hne2, yield_shift hy']
      simp only []
      rw [tokenizeLoop]
      simp only [yield_token]
      rw [← h]
      simp [List.dropLast_concat]
  | cons ch r ihr =>
    intro pos st start tail hlen hni hbd h
    have hlen' : (pos + 1) + r.length = e.length := by
      simp only [List.length_cons] at hlen
      omega
    rw [tokenizeLoop] at h
    cases hc : classify pos ch with
    | error e' => rw [hc] at h; exact absurd h (by simp)
    | ok next =>
      rw [hc] at h
      simp only [] at h
      rw [show ((ch :: r) ++ [')'] : List Char) = ch :: (r ++ [')']) from
        List.cons_append ch r [')']]
      rw [tokenizeLoop_cons, classify_succ_ok hc]
      simp only []
      by_cases hne : next = st
      · rw [if_neg (not_not_intro hne)] at h
        rw [if_neg (not_not_intro (by rw [hne]))]
        subst hne
        exact ihr (pos + 1) next start tail hlen' hni
          (stBound_mono hbd (Nat.le_succ pos)) h
      · rw [if_pos hne] at h
        have hne2 : shiftState next ≠ shiftState st := fun hh => hne (shiftState_inj hh)
        rw [if_pos hne2]
        cases hy : yield_token st e start pos with
        | none => rw [hy] at h; exact absurd h (by simp)
        | some o =>
          rw [hy] at h
          simp only [] at h
          rw [tokenizeLoop_acc] at h
          rw [yield_shift hy]
          simp only []
          rw [tokenizeLoop_acc]
          cases hres : tokenizeLoop e r (pos + 1) next pos [] with
          | none => rw [hres] at h; exact absurd h (by simp)
          | some rr =>
            rw [hres] at h
            cases rr with
            | error e2 => exact absurd h (by simp)
            | ok tail2 =>
              simp only [Option.some.injEq, Except.ok.injEq] at h
              have ihres := ihr (pos + 1) next pos tail2 hlen'
                (classify_ne_initial hc) (classify_bound hc) hres
              rw [ihres]
              rcases tokenizeLoop_ends e r (pos + 1) next pos tail2 hres with ⟨body, rfl⟩
              rw [← h]
              have hsplit : ([] : List Token) ++ o.toList ++ (body ++ [Token.End]) =
                  (o.toList ++ body) ++ [Token.End] := by simp
              rw [hsplit, List.dropLast_concat, List.dropLast_concat]
              simp

theorem tokenize_wrap {e : List Char} {ts : List Token}
    (hA : ∀ c ∈ e, c.utf8Size = 1) (hne : e ≠ [])
    (h : tokenize e = some (.ok ts)) :
    tokenize ('(' :: e ++ [')']) =
      some (.ok (.ParOpen :: (ts.dropLast ++ [.ParClose, .End]))) := by
  rcases List.exists_cons_of_ne_nil hne with ⟨c, e', rfl⟩
  unfold tokenize at h ⊢
  rw [tokenizeLoop] at h
  cases hc : classify 0 c with
  | error e0 => rw [hc] at h; exact absurd h (by simp)
  | ok s0 =>
    rw [hc] at h
    simp only [] at h
    have hs0 : s0 ≠ .Initial := classify_ne_initial hc
    rw [if_pos hs0] at h
    -- the Initial yield produces no token
    simp only [yield_token] at h
    -- wrapped run: first char is '('
    rw [show ('(' :: (c :: e') ++ [')'] : List Char) = '(' :: ((c :: e') ++ [')']) by simp]
    rw [tokenizeLoop, classify_lparen]
    simp only []
    rw [if_pos (by simp : TokenizerState.ParOpen 0 ≠ TokenizerState.Initial)]
    simp only [yield_token]
    -- second step: the first char c of e at position 1
    rw [show ((c :: e') ++ [')'] : List Char) = c :: (e' ++ [')']) by simp]
    rw [tokenizeLoop, classify_succ_ok hc]
    simp only []
    have hne01 : shiftState s0 ≠ TokenizerState.ParOpen 0 := by
      have hbd : stBound s0 1 := classify_bound hc
      cases s0 with
      | Initial => exact absurd rfl hs0
      | ParseNumber => simp [shiftState]
      | ParseOperator => simp [shiftState]
      | ParseWhitespace => simp [shiftState]
      | ParOpen k => simp [shiftState]
      | ParClose k => simp [shiftState]
    rw [if_pos hne01]
    simp only [yield_token]
    rw [tokenizeLoop_acc]
    have hw := tokenizeLoop_wrap (c :: e') hA e' 1 s0 0 ts
      (by simp [Nat.add_comm]) hs0 (classify_bound hc) (by simpa using h)
    rw [List.cons_append, List.cons_append] at hw
    simp only [Nat.zero_add] at hw ⊢
    rw [hw]
    simp

/-! ## Lexer lemmas -/

theorem parseLoop_nil (pos : Nat) (st : LexerState) (p : Int) (lex : List Lexem) :
    parseLoop [] pos st p lex = .ok (lex, st, p) := rfl

theorem parseLoop_cons (t : Token) (rest : List Token) (pos : Nat) (st : LexerState)
    (p : Int) (lex : List Lexem) :
    parseLoop (t :: rest) pos st p lex =
      match lexStep st t with
      | .failAt => .error (.LexerError pos)
      | .failWith e => .error e
      | .next push dp s => parseLoop rest (pos + 1) s (p + dp) (lex ++ push) := rfl

theorem parseLoop_acc (ts : List Token) : ∀ (pos : Nat) (st : LexerState) (p : Int)
    (lex : List Lexem),
    parseLoop ts pos st p lex =
      match parseLoop ts pos st p [] with
      | .error e => .error e
      | .ok (l, s, q) => .ok (lex ++ l, s, q) := by
  induction ts with
  | nil =>
    intro pos st p lex
    rw [parseLoop_nil, parseLoop_nil]
    simp
  | cons t rest ih =>
    intro pos st p lex
    rw [parseLoop_cons, parseLoop_cons]
    cases lexStep st t with
    | failAt => rfl
    | failWith e => rfl
    | next push dp s =>
      simp only []
      rw [ih (pos + 1) s (p + dp) (lex ++ push), ih (pos + 1) s (p + dp) ([] ++ push)]
      cases hres : parseLoop rest (pos + 1) s (p + dp) [] with
      | error e => rfl
      | ok r =>
        rcases r with ⟨l, s2, q⟩
        simp

theorem parseLoop_append (xs : List Token) : ∀ (ys : List Token) (pos : Nat)
    (st : LexerState) (p : Int),
    parseLoop (xs ++ ys) pos st p [] =
      match parseLoop xs pos st p [] with
      | .error e => .error e
      | .ok (l, s, q) =>
        match parseLoop ys (pos + xs.length) s q [] with
        | .error e => .error e
        | .ok (l2, s2, q2) => .ok (l ++ l2, s2, q2) := by
  induction xs with
  | nil =>
    intro ys pos st p
    simp only [List.nil_append, parseLoop_nil, List.length_nil, Nat.add_zero]
    cases hres : parseLoop ys pos st p [] with
    | error e => rfl
    | ok r =>
      rcases r with ⟨l2, s2, q2⟩
      simp
  | cons t xs ih =>
    intro ys pos st p
    rw [List.cons_append, parseLoop_cons, parseLoop_cons]
    cases lexStep st t with
    | failAt => rfl
    | failWith e => rfl
    | next push dp s =>
      simp only []
      rw [parseLoop_acc (xs ++ ys) (pos + 1) s (p + dp) ([] ++ push),
        parseLoop_acc xs (pos + 1) s (p + dp) ([] ++ push),
        ih ys (pos + 1) s (p + dp)]
      have hlen : pos + (t :: xs).length = (pos + 1) + xs.length := by
        simp only [List.length_cons]
        omega
      rw [hlen]
      cases h1 : parseLoop xs (pos + 1) s (p + dp) [] with
      | error e => rfl
      | ok r =>
        rcases r with ⟨l, s2, q⟩
        simp only []
        cases h2 : parseLoop ys ((pos + 1) + xs.length) s2 q [] with
        | error e => rfl
        | ok r2 =>
          rcases r2 with ⟨l2, s3, q3⟩
          simp

theorem parseLoop_shift (ts : List Token) : ∀ (pos1 pos2 : Nat) (st : LexerState)
    (p1 p2 : Int) (l : List Lexem) (s : LexerState) (q : Int),
    parseLoop ts pos1 st p1 [] = .ok (l, s, q) →
    parseLoop ts pos2 st p2 [] = .ok (l, s, q - p1 + p2) := by
  induction ts with
  | nil =>
    intro pos1 pos2 st p1 p2 l s q h
    rw [parseLoop_nil] at h ⊢
    simp only [Except.ok.injEq, Prod.mk.injEq] at h ⊢
    obtain ⟨h1, h2, h3⟩ := h
    exact ⟨h1, h2, by omega⟩
  | cons t rest ih =>
    intro pos1 pos2 st p1 p2 l s q h
    rw [parseLoop_cons] at h ⊢
    cases hstep : lexStep st t with
    | failAt => rw [hstep] at h; exact absurd h (by simp)
    | failWith e => rw [hstep] at h; exact absurd h (by simp)
    | next push dp s' =>
      rw [hstep] at h
      simp only [] at h ⊢
      rw [parseLoop_acc rest (pos1 + 1) s' (p1 + dp) ([] ++ push)] at h
      rw [parseLoop_acc rest (pos2 + 1) s' (p2 + dp) ([] ++ push)]
      cases h1 : parseLoop rest (pos1 + 1) s' (p1 + dp) [] with
      | error e => rw [h1] at h; exact absurd h (by simp)
      | ok r =>
        rcases r with ⟨l1, s1, q1⟩
        rw [h1] at h
        simp only [Except.ok.injEq, Prod.mk.injEq] at h
        obtain ⟨hl, hs, hq⟩ := h
        rw [ih (pos1 + 1) (pos2 + 1) s' (p1 + dp) (p2 + dp) l1 s1 q1 h1]
        simp only [Except.ok.injEq, Prod.mk.injEq]
        exact ⟨hl, hs, by omega⟩

theorem countPO_append (a b : List Lexem) : countPO (a ++ b) = countPO a + countPO b :=
  List.countP_append _ _ _

theorem countPC_append (a b : List Lexem) : countPC (a ++ b) = countPC a + countPC b :=
  List.countP_append _ _ _

theorem lexStep_balance {st : LexerState} {t : Token} {push : List Lexem} {dp : Int}
    {s : LexerState} (h : lexStep st t = .next push dp s) :
    (countPO push : ℤ) - countPC push = dp := by
  cases st <;> cases t <;>
    simp only [lexStep] at h <;>
    (repeat' split at h) <;>
    cases h <;>
    simp [countPO, countPC]

theorem parseLoop_balance (ts : List Token) : ∀ (pos : Nat) (st : LexerState) (p : Int)
    (l : List Lexem) (s : LexerState) (q : Int),
    parseLoop ts pos st p [] = .ok (l, s, q) →
    (countPO l : ℤ) - countPC l = q - p := by
  induction ts with
  | nil =>
    intro pos st p l s q h
    rw [parseLoop_nil] at h
    simp only [Except.ok.injEq, Prod.mk.injEq] at h
    obtain ⟨h1, h2, h3⟩ := h
    subst h1
    simp [countPO, countPC]
    omega
  | cons t rest ih =>
    intro pos st p l s q h
    rw [parseLoop_cons] at h
    cases hstep : lexStep st t with
    | failAt => rw [hstep] at h; exact absurd h (by simp)
    | failWith e => rw [hstep] at h; exact absurd h (by simp)
    | next push dp s' =>
      rw [hstep] at h
      simp only [] at h
      rw [parseLoop_acc rest (pos + 1) s' (p + dp) ([] ++ push)] at h
      cases h1 : parseLoop rest (pos + 1) s' (p + dp) [] with
      | error e => rw [h1] at h; exact absurd h (by simp)
      | ok r =>
        rcases r with ⟨l1, s1, q1⟩
        rw [h1] at h
        simp only [Except.ok.injEq, Prod.mk.injEq] at h
        obtain ⟨hl, hs, hq⟩ := h
        have hb := lexStep_balance hstep
        have hi := ih (pos + 1) s' (p + dp) l1 s1 q1 h1
        subst hl
        rw [show ([] : List Lexem) ++ push ++ l1 = push ++ l1 by simp,
          countPO_append, countPC_append]
        push_cast
        omega

theorem parse_ok_balance {ts : List Token} {L : List Lexem} (h : parse ts = .ok L) :
    countPO L = countPC L := by
  unfold parse at h
  cases h0 : parseLoop ts 0 .Initial 0 [] with
  | error e => rw [h0] at h; exact absurd h (by simp)
  | ok r =>
    rcases r with ⟨l, st, p⟩
    rw [h0] at h
    simp only [] at h
    split at h
    · rename_i hcond
      injection h with h
      subst h
      have hb := parseLoop_balance ts 0 .Initial 0 l st p h0
      have hp : p = 0 := hcond.2
      omega
    · exact absurd h (by simp)

theorem parseLoop_po_step {rest : List Token} {pos1 pos2 : Nat} {st' : LexerState}
    {p1 p2 : Int} {l : List Lexem} {s : LexerState} {q : Int}
    (h : parseLoop rest pos1 st' p1 [] = .ok (l, s, q)) :
    parseLoop rest pos2 st' (p2 + 1) [.ParOpen] = .ok (.ParOpen :: l, s, q - p1 + (p2 + 1)) := by
  rw [parseLoop_acc rest pos2 st' (p2 + 1) [.ParOpen]]
  rw [parseLoop_shift rest pos1 pos2 st' p1 (p2 + 1) l s q h]
  simp

theorem parseLoop_initial_paropen (body : List Token) :
    ∀ (pos1 pos2 : Nat) (p1 p2 : Int) (l : List Lexem) (s : LexerState) (q : Int),
    parseLoop body pos1 .Initial p1 [] = .ok (l, s, q) →
    s ≠ .Initial →
    parseLoop body pos2 .ParOpen p2 [] = .ok (.ParOpen :: l, s, q - p1 + p2 + 1) := by
  induction body with
  | nil =>
    intro pos1 pos2 p1 p2 l s q h hs
    rw [parseLoop_nil] at h
    simp only [Except.ok.injEq, Prod.mk.injEq] at h
    exact absurd h.2.1.symm hs
  | cons t rest ih =>
    intro pos1 pos2 p1 p2 l s q h hs
    rw [parseLoop_cons] at h ⊢
    cases t with
    | Whitespace w =>
      simp only [lexStep] at h ⊢
      simp only [List.nil_append, List.append_nil, add_zero] at h ⊢
      have hres := ih (pos1 + 1) (pos2 + 1) p1 p2 l s q h hs
      rw [hres]
    | Number v =>
      simp only [lexStep] at h ⊢
      simp only [List.nil_append, List.append_nil, add_zero] at h ⊢
      rw [parseLoop_po_step h]
      have harith : q - p1 + (p2 + 1) = q - p1 + p2 + 1 := by omega
      rw [harith]
    | Operator op =>
      by_cases hop : op = ['+'] ∨ op = ['-']
      · simp only [lexStep, if_pos hop] at h ⊢
        simp only [List.nil_append, List.append_nil, add_zero] at h ⊢
        rw [parseLoop_po_step h]
        have harith : q - p1 + (p2 + 1) = q - p1 + p2 + 1 := by omega
        rw [harith]
      · simp only [lexStep, if_neg hop] at h
        exact absurd h (by simp)
    | ParOpen =>
      simp only [lexStep] at h ⊢
      simp only [List.nil_append, List.append_nil, add_zero] at h ⊢
      rw [parseLoop_po_step h]
      have harith : q - p1 + (p2 + 1) = q - p1 + p2 + 1 := by omega
      rw [harith]
    | ParClose =>
      simp only [lexStep] at h
      exact absurd h (by simp)
    | End =>
      simp only [lexStep] at h
      exact absurd h (by simp)

theorem parse_wrap {body : List Token} {L : List Lexem}
    (h : parse (body ++ [.End]) = .ok L) :
    parse (.ParOpen :: (body ++ [.ParClose, .End])) = .ok (.ParOpen :: (L ++ [.ParClose])) := by
  unfold parse at h ⊢
  rw [parseLoop_append body [.End] 0 .Initial 0] at h
  cases hb : parseLoop body 0 .Initial 0 [] with
  | error e => rw [hb] at h; exact absurd h (by simp)
  | ok r =>
    rcases r with ⟨l, s, q⟩
    rw [hb] at h
    simp only [] at h
    rw [parseLoop_cons] at h
    -- process the wrapped stream: leading ParOpen token in Initial state
    rw [parseLoop_cons]
    simp only [lexStep] at h ⊢
    simp only [List.nil_append, add_zero] at h ⊢
    rw [parseLoop_append body [Token.ParClose, Token.End] 1 .ParOpen 0]
    cases s with
    | Initial => exact absurd h (by simp [lexStep])
    | LeadingSign sg => exact absurd h (by simp [lexStep])
    | Operator op =>
      simp only [lexStep] at h
      cases hco : classifyOp op with
      | none => rw [hco] at h; exact absurd h (by simp)
      | some o => rw [hco] at h; exact absurd h (by simp)
    | ParOpen => exact absurd h (by simp [lexStep])
    | End => exact absurd h (by simp [lexStep])
    | Number v sg =>
      simp only [lexStep] at h
      cases hpf : parseF64 v with
      | none => rw [hpf] at h; exact absurd h (by simp)
      | some num =>
        rw [hpf] at h
        try simp only [] at h
        rw [parseLoop_nil] at h
        simp only [List.nil_append] at h
        -- h : if … then .ok ([l ++ [Number (num*sg)], …]) … ; the final check
        split at h
        · rename_i hcond
          -- hcond : s-final = End ∧ pars = 0;  here final state is End, pars q + 0
          injection h with h
          have hq : q + 0 = 0 := hcond.2
          have hip := parseLoop_initial_paropen body 0 1 0 0 l (.Number v sg) q hb
            (by intro hbad; exact LexerState.noConfusion hbad)
          rw [hip]
          try simp only []
          rw [parseLoop_cons]
          simp only [lexStep, hpf]
          try simp only []
          rw [parseLoop_cons]
          simp only [lexStep]
          rw [parseLoop_nil]
          try simp only []
          rw [if_pos (⟨trivial, by omega⟩ : _ ∧ _)]
          rw [← h]
          simp
        · exact absurd h (by simp)
    | ParClose =>
      simp only [lexStep] at h
      try simp only [] at h
      rw [parseLoop_nil] at h
      simp only [List.nil_append] at h
      split at h
      · rename_i hcond
        injection h with h
        have hq : q + -1 = 0 := hcond.2
        have hip := parseLoop_initial_paropen body 0 1 0 0 l .ParClose q hb
          (by intro hbad; exact LexerState.noConfusion hbad)
        rw [hip]
        try simp only []
        rw [parseLoop_cons]
        simp only [lexStep]
        try simp only []
        rw [parseLoop_cons]
        simp only [lexStep]
        rw [parseLoop_nil]
        try simp only []
        rw [if_pos (⟨trivial, by omega⟩ : _ ∧ _)]
        rw [← h]
        simp
      · exact absurd h (by simp)

/-! ## Shunting-yard lemmas -/

theorem popGE_nil (op : Operator) : popGE op [] = ([], []) := rfl

theorem popGE_cons_op (op cur : Operator) (rest : List Lexem) :
    popGE op (.Operator cur :: rest) =
      if op.priority ≤ cur.priority then
        (.Operator cur :: (popGE op rest).1, (popGE op rest).2)
      else ([], .Operator cur :: rest) := rfl

theorem popGE_cons_number (op : Operator) (n : ℚ) (rest : List Lexem) :
    popGE op (.Number n :: rest) = ([], .Number n :: rest) := rfl

theorem popGE_cons_po (op : Operator) (rest : List Lexem) :
    popGE op (.ParOpen :: rest) = ([], .ParOpen :: rest) := rfl

theorem popGE_cons_pc (op : Operator) (rest : List Lexem) :
    popGE op (.ParClose :: rest) = ([], .ParClose :: rest) := rfl

theorem popToParen_nil : popToParen [] = ([], []) := rfl

theorem popToParen_cons_po (rest : List Lexem) : popToParen (.ParOpen :: rest) = ([], rest) :=
  rfl

theorem popToParen_cons_number (n : ℚ) (rest : List Lexem) :
    popToParen (.Number n :: rest) =
      (.Number n :: (popToParen rest).1, (popToParen rest).2) := rfl

theorem popToParen_cons_op (o : Operator) (rest : List Lexem) :
    popToParen (.Operator o :: rest) =
      (.Operator o :: (popToParen rest).1, (popToParen rest).2) := rfl

theorem popToParen_cons_pc (rest : List Lexem) :
    popToParen (.ParClose :: rest) =
      (.ParClose :: (popToParen rest).1, (popToParen rest).2) := rfl

theorem shunt_nil (stack out : List Lexem) : shunt [] stack out = (out, stack) := rfl

theorem shunt_cons_number (n : ℚ) (r stack out : List Lexem) :
    shunt (.Number n :: r) stack out = shunt r stack (out ++ [.Number n]) := rfl

theorem shunt_cons_operator (op : Operator) (r stack out : List Lexem) :
    shunt (.Operator op :: r) stack out =
      shunt r (.Operator op :: (popGE op stack).2) (out ++ (popGE op stack).1) := rfl

theorem shunt_cons_paropen (r stack out : List Lexem) :
    shunt (.ParOpen :: r) stack out = shunt r (.ParOpen :: stack) out := rfl

theorem shunt_cons_parclose (r stack out : List Lexem) :
    shunt (.ParClose :: r) stack out =
      shunt r (popToParen stack).2 (out ++ (popToParen stack).1) := rfl

theorem shuntOK_nil (stack : List Lexem) : shuntOK [] stack = true := rfl

theorem shuntOK_cons_number (n : ℚ) (r stack : List Lexem) :
    shuntOK (.Number n :: r) stack = shuntOK r stack := rfl

theorem shuntOK_cons_operator (op : Operator) (r stack : List Lexem) :
    shuntOK (.Operator op :: r) stack = shuntOK r (.Operator op :: (popGE op stack).2) := rfl

theorem shuntOK_cons_paropen (r stack : List Lexem) :
    shuntOK (.ParOpen :: r) stack = shuntOK r (.ParOpen :: stack) := rfl

theorem shuntOK_cons_parclose (r stack : List Lexem) :
    shuntOK (.ParClose :: r) stack =
      (decide (Lexem.ParOpen ∈ stack) && shuntOK r (popToParen stack).2) := rfl

@[simp] theorem countPO_nil : countPO [] = 0 := rfl

@[simp] theorem countPO_cons_po (l : List Lexem) :
    countPO (.ParOpen :: l) = countPO l + 1 := by
  simp [countPO, List.countP_cons]

@[simp] theorem countPO_cons_number (n : ℚ) (l : List Lexem) :
    countPO (.Number n :: l) = countPO l := by
  simp [countPO, List.countP_cons]

@[simp] theorem countPO_cons_op (o : Operator) (l : List Lexem) :
    countPO (.Operator o :: l) = countPO l := by
  simp [countPO, List.countP_cons]

@[simp] theorem countPO_cons_pc (l : List Lexem) :
    countPO (.ParClose :: l) = countPO l := by
  simp [countPO, List.countP_cons]

@[simp] theorem countPC_nil : countPC [] = 0 := rfl

@[simp] theorem countPC_cons_pc (l : List Lexem) :
    countPC (.ParClose :: l) = countPC l + 1 := by
  simp [countPC, List.countP_cons]

@[simp] theorem countPC_cons_number (n : ℚ) (l : List Lexem) :
    countPC (.Number n :: l) = countPC l := by
  simp [countPC, List.countP_cons]

@[simp] theorem countPC_cons_op (o : Operator) (l : List Lexem) :
    countPC (.Operator o :: l) = countPC l := by
  simp [countPC, List.countP_cons]

@[simp] theorem countPC_cons_po (l : List Lexem) :
    countPC (.ParOpen :: l) = countPC l := by
  simp [countPC, List.countP_cons]

theorem shunt_acc (L : List Lexem) : ∀ stack out,
    shunt L stack out = (out ++ (shunt L stack []).1, (shunt L stack []).2) := by
  induction L with
  | nil =>
    intro stack out
    simp [shunt_nil]
  | cons x r ih =>
    intro stack out
    cases x with
    | Number n =>
      rw [shunt_cons_number, shunt_cons_number]
      have h1 := ih stack (out ++ [Lexem.Number n])
      have h2 := ih stack ([] ++ [Lexem.Number n])
      rw [h1, h2]
      simp
    | Operator op =>
      rw [shunt_cons_operator, shunt_cons_operator]
      have h1 := ih (.Operator op :: (popGE op stack).2) (out ++ (popGE op stack).1)
      have h2 := ih (.Operator op :: (popGE op stack).2) ([] ++ (popGE op stack).1)
      rw [h1, h2]
      simp
    | ParOpen =>
      rw [shunt_cons_paropen, shunt_cons_paropen]
      exact ih (.ParOpen :: stack) out
    | ParClose =>
      rw [shunt_cons_parclose, shunt_cons_parclose]
      have h1 := ih (popToParen stack).2 (out ++ (popToParen stack).1)
      have h2 := ih (popToParen stack).2 ([] ++ (popToParen stack).1)
      rw [h1, h2]
      simp

theorem popGE_append_paropen (op : Operator) (stack : List Lexem) :
    popGE op (stack ++ [.ParOpen]) = ((popGE op stack).1, (popGE op stack).2 ++ [.ParOpen]) := by
  induction stack with
  | nil => rfl
  | cons x rest ih =>
    cases x with
    | Number n => rw [List.cons_append, popGE_cons_number, popGE_cons_number]; rfl
    | ParOpen => rw [List.cons_append, popGE_cons_po, popGE_cons_po]; rfl
    | ParClose => rw [List.cons_append, popGE_cons_pc, popGE_cons_pc]; rfl
    | Operator cur =>
      rw [List.cons_append, popGE_cons_op, popGE_cons_op]
      by_cases hp : op.priority ≤ cur.priority
      · rw [if_pos hp, if_pos hp, ih]
      · rw [if_neg hp, if_neg hp, List.cons_append]

theorem popGE_countPO (op : Operator) (stack : List Lexem) :
    countPO (popGE op stack).1 = 0 ∧ countPO (popGE op stack).2 = countPO stack := by
  induction stack with
  | nil => simp [popGE_nil]
  | cons x rest ih =>
    cases x with
    | Number n => simp [popGE_cons_number]
    | ParOpen => simp [popGE_cons_po]
    | ParClose => simp [popGE_cons_pc]
    | Operator cur =>
      rw [popGE_cons_op]
      by_cases hp : op.priority ≤ cur.priority
      · rw [if_pos hp]
        exact ⟨by simp [ih.1], by simp [ih.2]⟩
      · rw [if_neg hp]
        simp

theorem popToParen_of_not_mem {stack : List Lexem} (h : Lexem.ParOpen ∉ stack) :
    popToParen stack = (stack, []) := by
  induction stack with
  | nil => rfl
  | cons x rest ih =>
    have hx : x ≠ Lexem.ParOpen := fun hh => h (by simp [hh])
    have hr : Lexem.ParOpen ∉ rest := fun hh => h (by simp [hh])
    cases x with
    | ParOpen => exact absurd rfl hx
    | Number n => rw [popToParen_cons_number, ih hr]
    | Operator o => rw [popToParen_cons_op, ih hr]
    | ParClose => rw [popToParen_cons_pc, ih hr]

theorem mem_of_cons_ne {x : Lexem} {rest : List Lexem}
    (h : Lexem.ParOpen ∈ x :: rest) (hx : x ≠ Lexem.ParOpen) : Lexem.ParOpen ∈ rest := by
  rcases List.mem_cons.mp h with h1 | h1
  · exact absurd h1.symm hx
  · exact h1

theorem popToParen_append_of_mem {stack : List Lexem} (m : List Lexem)
    (h : Lexem.ParOpen ∈ stack) :
    popToParen (stack ++ m) = ((popToParen stack).1, (popToParen stack).2 ++ m) := by
  induction stack with
  | nil => simp at h
  | cons x rest ih =>
    cases x with
    | ParOpen => rw [List.cons_append, popToParen_cons_po, popToParen_cons_po]
    | Number n =>
      rw [List.cons_append, popToParen_cons_number, popToParen_cons_number,
        ih (mem_of_cons_ne h (by simp))]
    | Operator o =>
      rw [List.cons_append, popToParen_cons_op, popToParen_cons_op,
        ih (mem_of_cons_ne h (by simp))]
    | ParClose =>
      rw [List.cons_append, popToParen_cons_pc, popToParen_cons_pc,
        ih (mem_of_cons_ne h (by simp))]

theorem popToParen_countPO_of_mem {stack : List Lexem} (h : Lexem.ParOpen ∈ stack) :
    countPO (popToParen stack).1 = 0 ∧ countPO (popToParen stack).2 + 1 = countPO stack := by
  induction stack with
  | nil => simp at h
  | cons x rest ih =>
    cases x with
    | ParOpen =>
      rw [popToParen_cons_po]
      simp
    | Number n =>
      have hi := ih (mem_of_cons_ne h (by simp))
      rw [popToParen_cons_number]
      exact ⟨by simp [hi.1], by simp [hi.2]⟩
    | Operator o =>
      have hi := ih (mem_of_cons_ne h (by simp))
      rw [popToParen_cons_op]
      exact ⟨by simp [hi.1], by simp [hi.2]⟩
    | ParClose =>
      have hi := ih (mem_of_cons_ne h (by simp))
      rw [popToParen_cons_pc]
      exact ⟨by simp [hi.1], by simp [hi.2]⟩

theorem shunt_snd_acc (L stack out : List Lexem) :
    (shunt L stack out).2 = (shunt L stack []).2 := by
  rw [shunt_acc]

theorem countPO_eq_zero_of_not_mem {stack : List Lexem} (h : Lexem.ParOpen ∉ stack) :
    countPO stack = 0 := by
  unfold countPO
  rw [List.countP_eq_zero]
  intro a ha
  simp only [decide_eq_true_eq]
  intro heq
  exact h (heq ▸ ha)

theorem countPO_pos_of_mem {m : List Lexem} (h : Lexem.ParOpen ∈ m) : 0 < countPO m :=
  List.countP_pos_iff.mpr ⟨_, h, by simp⟩

theorem mem_of_countPO_pos {m : List Lexem} (h : 0 < countPO m) : Lexem.ParOpen ∈ m := by
  by_contra hmem
  rw [countPO_eq_zero_of_not_mem hmem] at h
  exact absurd h (by simp)

theorem popToParen_append_po_of_not_mem {s : List Lexem} (h : Lexem.ParOpen ∉ s) :
    popToParen (s ++ [.ParOpen]) = (s, []) := by
  induction s with
  | nil => rfl
  | cons x rest ih =>
    have hr : Lexem.ParOpen ∉ rest := fun hh => h (by simp [hh])
    cases x with
    | ParOpen => exact absurd (by simp) h
    | Number n => rw [List.cons_append, popToParen_cons_number, ih hr]
    | Operator o => rw [List.cons_append, popToParen_cons_op, ih hr]
    | ParClose => rw [List.cons_append, popToParen_cons_pc, ih hr]

theorem shunt_paropen_bottom (L : List Lexem) : ∀ stack,
    shuntOK L stack = true →
    shunt L (stack ++ [.ParOpen]) [] =
      ((shunt L stack []).1, (shunt L stack []).2 ++ [.ParOpen]) := by
  induction L with
  | nil =>
    intro stack hok
    rw [shunt_nil, shunt_nil]
  | cons x r ih =>
    intro stack hok
    cases x with
    | Number n =>
      rw [shuntOK_cons_number] at hok
      rw [shunt_cons_number, shunt_cons_number]
      rw [shunt_acc r (stack ++ [Lexem.ParOpen]) ([] ++ [Lexem.Number n]),
        shunt_acc r stack ([] ++ [Lexem.Number n])]
      rw [ih stack hok]
      try simp
    | Operator op =>
      rw [shuntOK_cons_operator] at hok
      rw [shunt_cons_operator, shunt_cons_operator, popGE_append_paropen]
      simp only []
      rw [← List.cons_append]
      rw [shunt_acc r ((Lexem.Operator op :: (popGE op stack).2) ++ [Lexem.ParOpen])
          ([] ++ (popGE op stack).1),
        shunt_acc r (Lexem.Operator op :: (popGE op stack).2) ([] ++ (popGE op stack).1)]
      rw [ih (Lexem.Operator op :: (popGE op stack).2) hok]
      try simp
    | ParOpen =>
      rw [shuntOK_cons_paropen] at hok
      rw [shunt_cons_paropen, shunt_cons_paropen, ← List.cons_append]
      exact ih (Lexem.ParOpen :: stack) hok
    | ParClose =>
      rw [shuntOK_cons_parclose, Bool.and_eq_true] at hok
      have hmem : Lexem.ParOpen ∈ stack := of_decide_eq_true hok.1
      rw [shunt_cons_parclose, shunt_cons_parclose,
        popToParen_append_of_mem [Lexem.ParOpen] hmem]
      simp only []
      rw [shunt_acc r ((popToParen stack).2 ++ [Lexem.ParOpen]) ([] ++ (popToParen stack).1),
        shunt_acc r (popToParen stack).2 ([] ++ (popToParen stack).1)]
      rw [ih (popToParen stack).2 hok.2]
      try simp

theorem shunt_countPO_ge (L : List Lexem) : ∀ stack,
    countPO stack + countPO L ≤ countPO (shunt L stack []).2 + countPC L := by
  induction L with
  | nil =>
    intro stack
    rw [shunt_nil]
    simp
  | cons x r ih =>
    intro stack
    cases x with
    | Number n =>
      rw [shunt_cons_number, shunt_snd_acc]
      have := ih stack
      simp only [countPO_cons_number, countPC_cons_number]
      omega
    | Operator op =>
      rw [shunt_cons_operator, shunt_snd_acc]
      have h1 := ih (Lexem.Operator op :: (popGE op stack).2)
      have h2 := (popGE_countPO op stack).2
      simp only [countPO_cons_op] at h1
      simp only [countPO_cons_op, countPC_cons_op]
      omega
    | ParOpen =>
      rw [shunt_cons_paropen]
      have h1 := ih (Lexem.ParOpen :: stack)
      simp only [countPO_cons_po] at h1
      simp only [countPO_cons_po, countPC_cons_po]
      omega
    | ParClose =>
      rw [shunt_cons_parclose, shunt_snd_acc]
      simp only [countPO_cons_pc, countPC_cons_pc]
      by_cases hmem : Lexem.ParOpen ∈ stack
      · have h1 := ih (popToParen stack).2
        have h2 := (popToParen_countPO_of_mem hmem).2
        omega
      · have hp2 : (popToParen stack).2 = [] := by rw [popToParen_of_not_mem hmem]
        rw [hp2]
        have h1 := ih []
        have h2 := countPO_eq_zero_of_not_mem hmem
        simp only [countPO_nil] at h1
        omega

theorem shunt_countPO_gt (L : List Lexem) : ∀ stack,
    shuntOK L stack = false →
    countPO stack + countPO L + 1 ≤ countPO (shunt L stack []).2 + countPC L := by
  induction L with
  | nil =>
    intro stack hok
    rw [shuntOK_nil] at hok
    exact absurd hok (by simp)
  | cons x r ih =>
    intro stack hok
    cases x with
    | Number n =>
      rw [shuntOK_cons_number] at hok
      rw [shunt_cons_number, shunt_snd_acc]
      have := ih stack hok
      simp only [countPO_cons_number, countPC_cons_number]
      omega
    | Operator op =>
      rw [shuntOK_cons_operator] at hok
      rw [shunt_cons_operator, shunt_snd_acc]
      have h1 := ih (Lexem.Operator op :: (popGE op stack).2) hok
      have h2 := (popGE_countPO op stack).2
      simp only [countPO_cons_op] at h1
      simp only [countPO_cons_op, countPC_cons_op]
      omega
    | ParOpen =>
      rw [shuntOK_cons_paropen] at hok
      rw [shunt_cons_paropen]
      have h1 := ih (Lexem.ParOpen :: stack) hok
      simp only [countPO_cons_po] at h1
      simp only [countPO_cons_po, countPC_cons_po]
      omega
    | ParClose =>
      rw [shuntOK_cons_parclose] at hok
      rw [shunt_cons_parclose, shunt_snd_acc]
      simp only [countPO_cons_pc, countPC_cons_pc]
      by_cases hmem : Lexem.ParOpen ∈ stack
      · rw [Bool.and_eq_false_iff] at hok
        rcases hok with hok | hok
        · exact absurd (decide_eq_true hmem) (by rw [hok]; simp)
        · have h1 := ih (popToParen stack).2 hok
          have h2 := (popToParen_countPO_of_mem hmem).2
          omega
      · have hp2 : (popToParen stack).2 = [] := by rw [popToParen_of_not_mem hmem]
        rw [hp2]
        have h1 := shunt_countPO_ge r []
        have h2 := countPO_eq_zero_of_not_mem hmem
        simp only [countPO_nil] at h1
        omega

theorem evalLoop_nil (stack : List ℚ) : evalLoop [] stack = .ok stack := rfl

theorem evalLoop_number (n : ℚ) (rest : List Lexem) (stack : List ℚ) :
    evalLoop (.Number n :: rest) stack = evalLoop rest (n :: stack) := rfl

theorem evalLoop_operator (op : Operator) (rest : List Lexem) (stack : List ℚ) :
    evalLoop (.Operator op :: rest) stack =
      match stack with
      | b :: a :: s => evalLoop rest (applyOp op a b :: s)
      | _ => .error .EvalError := rfl

theorem evalLoop_po (rest : List Lexem) (stack : List ℚ) :
    evalLoop (.ParOpen :: rest) stack = .error .EvalError := rfl

theorem evalLoop_pc (rest : List Lexem) (stack : List ℚ) :
    evalLoop (.ParClose :: rest) stack = .error .EvalError := rfl

theorem evalLoop_po_mem (p : List Lexem) : ∀ stack, Lexem.ParOpen ∈ p →
    evalLoop p stack = .error .EvalError := by
  induction p with
  | nil =>
    intro stack h
    simp at h
  | cons x r ih =>
    intro stack h
    cases x with
    | ParOpen => rfl
    | ParClose => rfl
    | Number n =>
      rw [evalLoop_number]
      exact ih (n :: stack) (mem_of_cons_ne h (by simp))
    | Operator op =>
      rw [evalLoop_operator]
      have hr := mem_of_cons_ne h (by simp)
      match stack with
      | [] => rfl
      | [b] => rfl
      | b :: a :: s => exact ih (applyOp op a b :: s) hr

theorem shunt_append (xs : List Lexem) : ∀ ys stack out,
    shunt (xs ++ ys) stack out = shunt ys (shunt xs stack out).2 (shunt xs stack out).1 := by
  induction xs with
  | nil =>
    intro ys stack out
    rw [List.nil_append, shunt_nil]
  | cons x r ih =>
    intro ys stack out
    cases x with
    | Number n =>
      rw [List.cons_append, shunt_cons_number, shunt_cons_number]
      exact ih ys stack (out ++ [Lexem.Number n])
    | Operator op =>
      rw [List.cons_append, shunt_cons_operator, shunt_cons_operator]
      exact ih ys (Lexem.Operator op :: (popGE op stack).2) (out ++ (popGE op stack).1)
    | ParOpen =>
      rw [List.cons_append, shunt_cons_paropen, shunt_cons_paropen]
      exact ih ys (Lexem.ParOpen :: stack) out
    | ParClose =>
      rw [List.cons_append, shunt_cons_parclose, shunt_cons_parclose]
      exact ih ys (popToParen stack).2 (out ++ (popToParen stack).1)

theorem evalRpn_error_of_po_snd {L : List Lexem}
    (hpos : 0 < countPO (shunt L [] []).2) : evalRpn (rpnRepr L) = .error .EvalError := by
  have hmem := mem_of_countPO_pos hpos
  have hmem2 : Lexem.ParOpen ∈ rpnRepr L := List.mem_append.mpr (Or.inr hmem)
  unfold evalRpn
  rw [evalLoop_po_mem (rpnRepr L) [] hmem2]

theorem rpnRepr_wrap {L : List Lexem} {v : ℚ}
    (hbal : countPO L = countPC L)
    (hok : evalRpn (rpnRepr L) = .ok v) :
    rpnRepr (.ParOpen :: (L ++ [.ParClose])) = rpnRepr L := by
  cases hOKb : shuntOK L [] with
  | false =>
    exfalso
    have hC := shunt_countPO_gt L [] hOKb
    simp only [countPO_nil] at hC
    have hpos : 0 < countPO (shunt L [] []).2 := by omega
    rw [evalRpn_error_of_po_snd hpos] at hok
    exact Except.noConfusion hok
  | true =>
    have hsnd : countPO (shunt L [] []).2 = 0 := by
      by_contra hz
      have hpos : 0 < countPO (shunt L [] []).2 := Nat.pos_of_ne_zero hz
      rw [evalRpn_error_of_po_snd hpos] at hok
      exact Except.noConfusion hok
    have hnotmem : Lexem.ParOpen ∉ (shunt L [] []).2 := fun hm =>
      absurd (countPO_pos_of_mem hm) (by omega)
    unfold rpnRepr
    rw [shunt_cons_paropen, shunt_append L [Lexem.ParClose] [Lexem.ParOpen] []]
    have hshift := shunt_paropen_bottom L [] hOKb
    rw [show ([] : List Lexem) ++ [Lexem.ParOpen] = [Lexem.ParOpen] from rfl] at hshift
    rw [hshift]
    simp only []
    rw [shunt_cons_parclose, popToParen_append_po_of_not_mem hnotmem]
    simp only []
    rw [shunt_nil]
    simp

/-! ## Evaluator lemmas -/

theorem evalLoop_spec (p : List Lexem) : ∀ stack : List ℚ,
    (∀ e, evalLoop p stack = .error e →
      e = .EvalError ∧ evalFailsSpec p stack.length = true) ∧
    (∀ s2, evalLoop p stack = .ok s2 →
      evalFailsSpec p stack.length = decide (s2 = [])) := by
  induction p with
  | nil =>
    intro stack
    constructor
    · intro e he
      rw [evalLoop_nil] at he
      exact absurd he (by simp)
    · intro s2 hs
      rw [evalLoop_nil] at hs
      injection hs with hs
      rw [← hs]
      cases stack <;> simp [evalFailsSpec]
  | cons x r ih =>
    intro stack
    cases x with
    | Number n =>
      constructor
      · intro e he
        exact (ih (n :: stack)).1 e he
      · intro s2 hs
        exact (ih (n :: stack)).2 s2 hs
    | ParOpen =>
      constructor
      · intro e he
        rw [evalLoop_po] at he
        injection he with he
        exact ⟨he.symm, rfl⟩
      · intro s2 hs
        rw [evalLoop_po] at hs
        exact absurd hs (by simp)
    | ParClose =>
      constructor
      · intro e he
        rw [evalLoop_pc] at he
        injection he with he
        exact ⟨he.symm, rfl⟩
      · intro s2 hs
        rw [evalLoop_pc] at hs
        exact absurd hs (by simp)
    | Operator op =>
      match stack with
      | [] =>
        constructor
        · intro e he
          rw [show evalLoop (Lexem.Operator op :: r) [] = Except.error Error.EvalError
            from rfl] at he
          injection he with he
          exact ⟨he.symm, rfl⟩
        · intro s2 hs
          rw [show evalLoop (Lexem.Operator op :: r) [] = Except.error Error.EvalError
            from rfl] at hs
          exact absurd hs (by simp)
      | [b] =>
        constructor
        · intro e he
          rw [show evalLoop (Lexem.Operator op :: r) [b] = Except.error Error.EvalError
            from rfl] at he
          injection he with he
          exact ⟨he.symm, rfl⟩
        · intro s2 hs
          rw [show evalLoop (Lexem.Operator op :: r) [b] = Except.error Error.EvalError
            from rfl] at hs
          exact absurd hs (by simp)
      | b :: a :: s =>
        constructor
        · intro e he
          obtain ⟨h1, h2⟩ := (ih (applyOp op a b :: s)).1 e he
          refine ⟨h1, ?_⟩
          show (decide ((b :: a :: s).length < 2) ||
            evalFailsSpec r ((b :: a :: s).length - 1)) = true
          rw [show ((b :: a :: s).length - 1) = (applyOp op a b :: s).length from rfl, h2]
          simp
        · intro s2 hs
          have h2 := (ih (applyOp op a b :: s)).2 s2 hs
          show (decide ((b :: a :: s).length < 2) ||
            evalFailsSpec r ((b :: a :: s).length - 1)) = decide (s2 = [])
          rw [show ((b :: a :: s).length - 1) = (applyOp op a b :: s).length from rfl, h2]
          simp

/-! ## First-invalid-character and whitespace-only lemmas -/

theorem classify_error_of_invalid {pos : Nat} {c : Char} (h : validChar c = false) :
    classify pos c = .error (.TokenizerError pos c) := by
  unfold validChar at h
  simp only [Bool.or_eq_false_iff] at h
  obtain ⟨⟨⟨⟨⟨hd, hdot⟩, hws⟩, hop⟩, hlp⟩, hrp⟩ := h
  unfold classify
  rw [if_neg (by simp [hd, hdot]), if_neg (by simp [hws]), if_neg (by simp [hop]),
    if_neg (by simp [hlp]), if_neg (by simp [hrp])]

theorem classify_ok_of_valid {pos : Nat} {c : Char} (h : validChar c = true) :
    ∃ s, classify pos c = .ok s := by
  unfold classify
  split_ifs with h1 h2 h3 h4 h5
  · exact ⟨_, rfl⟩
  · exact ⟨_, rfl⟩
  · exact ⟨_, rfl⟩
  · exact ⟨_, rfl⟩
  · exact ⟨_, rfl⟩
  · exfalso
    unfold validChar at h
    simp only [h1, h2, h3, h4, h5] at h
    simp at h

theorem yield_token_ascii (st : TokenizerState) {input : List Char} {start pos : Nat}
    (h1 : ∀ d ∈ input.take pos, d.utf8Size = 1) (h2 : start ≤ pos)
    (h3 : pos ≤ input.length) :
    ∃ o, yield_token st input start pos = some o := by
  cases st with
  | Initial => exact ⟨none, rfl⟩
  | ParOpen k => exact ⟨some .ParOpen, rfl⟩
  | ParClose k => exact ⟨some .ParClose, rfl⟩
  | ParseNumber =>
    refine ⟨some (.Number ((input.drop start).take (pos - start))), ?_⟩
    simp only [yield_token]
    rw [byteSlice_of_prefix_one h1 h2 h3]
    rfl
  | ParseOperator =>
    refine ⟨some (.Operator ((input.drop start).take (pos - start))), ?_⟩
    simp only [yield_token]
    rw [byteSlice_of_prefix_one h1 h2 h3]
    rfl
  | ParseWhitespace =>
    refine ⟨some (.Whitespace ((input.drop start).take (pos - start))), ?_⟩
    simp only [yield_token]
    rw [byteSlice_of_prefix_one h1 h2 h3]
    rfl

theorem tokenizeLoop_first_invalid (input : List Char) {c : Char}
    (hc : validChar c = false) (pre : List Char) :
    ∀ (rest : List Char) (pos : Nat) (st : TokenizerState) (start : Nat)
      (toks : List Token),
      input.drop pos = pre ++ c :: rest →
      (∀ d ∈ pre, validChar d = true) →
      (∀ d ∈ input.take (pos + pre.length), d.utf8Size = 1) →
      start ≤ pos →
      tokenizeLoop input (pre ++ c :: rest) pos st start toks =
        some (.error (.TokenizerError (pos + pre.length) c)) := by
  induction pre with
  | nil =>
    intro rest pos st start toks hdrop hvalid hsize hstart
    rw [List.nil_append, tokenizeLoop_cons, classify_error_of_invalid hc]
    simp
  | cons d pre ih =>
    intro rest pos st start toks hdrop hvalid hsize hstart
    have hposlen : pos ≤ input.length := by
      by_contra hgt
      rw [List.drop_eq_nil_of_le (by omega)] at hdrop
      exact absurd hdrop.symm (by simp)
    have hdrop' : input.drop (pos + 1) = pre ++ c :: rest := by
      have h0 := List.drop_drop 1 pos input
      rw [← h0, hdrop]
      rfl
    have hidx : pos + 1 + pre.length = pos + (d :: pre).length := by
      simp only [List.length_cons]
      omega
    have hsize' : ∀ e ∈ input.take (pos + 1 + pre.length), e.utf8Size = 1 := by
      rw [hidx]
      exact hsize
    rw [List.cons_append, tokenizeLoop_cons]
    obtain ⟨nst, hnst⟩ := @classify_ok_of_valid pos d (hvalid d (by simp))
    rw [hnst]
    simp only []
    by_cases hne : nst = st
    · rw [if_neg (not_not_intro hne)]
      subst hne
      have := ih rest (pos + 1) nst start toks hdrop'
        (fun e he => hvalid e (by simp [he])) hsize' (by omega)
      rw [this, hidx]
    · rw [if_pos hne]
      obtain ⟨o, ho⟩ := yield_token_ascii st
        (fun e he => hsize e (take_sub_take (by omega) he)) hstart hposlen
      rw [ho]
      simp only []
      have := ih rest (pos + 1) nst pos (toks ++ o.toList) hdrop'
        (fun e he => hvalid e (by simp [he])) hsize' (by omega)
      rw [this, hidx]

theorem ws_toNat {c : Char} (h : rustIsWhitespace c = true) :
    c.toNat = 9 ∨ c.toNat = 10 ∨ c.toNat = 11 ∨ c.toNat = 12 ∨ c.toNat = 13 ∨
    c.toNat = 32 ∨ c.toNat = 133 ∨ c.toNat = 160 ∨ c.toNat = 5760 ∨
    (8192 ≤ c.toNat ∧ c.toNat ≤ 8202) ∨ c.toNat = 8232 ∨ c.toNat = 8233 ∨
    c.toNat = 8239 ∨ c.toNat = 8287 ∨ c.toNat = 12288 := by
  unfold rustIsWhitespace at h
  simp only [Bool.or_eq_true, beq_iff_eq, Bool.and_eq_true, decide_eq_true_eq] at h
  tauto

theorem classify_ws {pos : Nat} {c : Char} (h : rustIsWhitespace c = true) :
    classify pos c = .ok .ParseWhitespace := by
  have ht := ws_toNat h
  have hdot : c ≠ '.' := by
    intro hh
    subst hh
    exact absurd h (by decide)
  have hdig : rustIsDigit c = false := by
    unfold rustIsDigit
    simp only [Bool.and_eq_false_iff, decide_eq_false_iff_not, not_le]
    rcases ht with h1|h1|h1|h1|h1|h1|h1|h1|h1|h1|h1|h1|h1|h1|h1 <;> omega
  unfold classify
  rw [if_neg (by simp [hdig, hdot]), if_pos h]

theorem tokenizeLoop_ws_only (input : List Char) (rest : List Char) :
    ∀ pos, (∀ c ∈ rest, rustIsWhitespace c = true) →
      tokenizeLoop input rest pos .ParseWhitespace 0 [] =
        some (.ok [Token.Whitespace input, Token.End]) := by
  induction rest with
  | nil =>
    intro pos hws
    rw [tokenizeLoop_nil]
    simp only [yield_token]
    rw [byteSlice_full]
    rfl
  | cons c r ih =>
    intro pos hws
    rw [tokenizeLoop_cons, classify_ws (hws c (by simp))]
    simp only []
    rw [if_neg (not_not_intro rfl)]
    exact ih (pos + 1) (fun d hd => hws d (by simp [hd]))

/-! ## Claim theorems -/

/-- C1 (code bug): lexing is NOT insensitive to whitespace between tokens.
`"1+2"` lexes to `[1, Add, 2]` but `"1 + 2"` fails with `LexerError 1`:
in the `Number` (and `Operator`) states the whitespace arm of the source is a
no-op expression statement (`lexer.rs:74-76`, `89-91`), so the whitespace
token falls through to the catch-all error arm instead of being absorbed. -/
theorem c1_whitespace_divergence :
    tokenize "1+2".toList =
      some (.ok [.Number ['1'], .Operator ['+'], .Number ['2'], .End]) ∧
    parse [.Number ['1'], .Operator ['+'], .Number ['2'], .End] =
      .ok [.Number 1, .Operator .Add, .Number 2] ∧
    tokenize "1 + 2".toList =
      some (.ok [.Number ['1'], .Whitespace [' '], .Operator ['+'],
        .Whitespace [' '], .Number ['2'], .End]) ∧
    parse [.Number ['1'], .Whitespace [' '], .Operator ['+'], .Whitespace [' '],
      .Number ['2'], .End] = .error (.LexerError 1) ∧
    eval "1+2".toList = some (.ok 3) ∧
    eval "1 + 2".toList = some (.error (.LexerError 1)) := by
  refine ⟨by with_unfolding_all decide, by with_unfolding_all decide, by with_unfolding_all decide, by with_unfolding_all decide, by with_unfolding_all decide, by with_unfolding_all decide⟩

/-- C2 (code bug): `eval` can panic on multi-byte input.  On the two-character
input `U+00A0 '1'` the tokenizer slices `&input[0..1]` where the positions
are character indices but slicing is by byte, so byte 1 falls inside the
two-byte no-break space and the slice panics (modelled as `none`). -/
theorem c2_multibyte_panic :
    eval ['\u00A0', '1'] = none ∧ tokenize ['\u00A0', '1'] = none := by
  refine ⟨by with_unfolding_all decide, by with_unfolding_all decide⟩

/-- C3 counterexample: the lexer accepts the token stream of `"1)*(2"`,
whose output `[1, ParClose, Mul, ParOpen, 2]` is not properly nested: the
depth counter goes negative at the `ParClose` and returns to zero at the
`ParOpen`, and the code only checks the final counter, never negativity. -/
theorem c3_nesting_counterexample :
    tokenize "1)*(2".toList = some (.ok [.Number ['1'], .ParClose, .Operator ['*'],
      .ParOpen, .Number ['2'], .End]) ∧
    parse [.Number ['1'], .ParClose, .Operator ['*'], .ParOpen, .Number ['2'], .End] =
      .ok [.Number 1, .ParClose, .Operator .Mul, .ParOpen, .Number 2] ∧
    properlyNested [.Number 1, .ParClose, .Operator .Mul, .ParOpen, .Number 2] = false := by
  refine ⟨by with_unfolding_all decide, by with_unfolding_all decide, by with_unfolding_all decide⟩

/-- C3 (amended): for every token stream on which the lexer returns `Ok`,
the output has equally many `ParOpen` and `ParClose` lexems (the paren
counter returns to zero); proper nesting is not guaranteed, as the counter
may go negative transiently. -/
theorem c3_balanced_counts (ts : List Token) (L : List Lexem) (h : parse ts = .ok L) :
    countPO L = countPC L :=
  parse_ok_balance h

theorem c3_balanced_counts_witness :
    parse [Token.ParOpen, Token.Number ['1'], Token.ParClose, Token.End] =
      .ok [Lexem.ParOpen, Lexem.Number 1, Lexem.ParClose] ∧
    countPO [Lexem.ParOpen, Lexem.Number 1, Lexem.ParClose] =
      countPC [Lexem.ParOpen, Lexem.Number 1, Lexem.ParClose] :=
  ⟨by with_unfolding_all decide, c3_balanced_counts [Token.ParOpen, Token.Number ['1'], Token.ParClose, Token.End]
    [Lexem.ParOpen, Lexem.Number 1, Lexem.ParClose] (by with_unfolding_all decide)⟩

/-- C4 counterexample: `eval "1+2**3-10/5*6"` does not return `-1.0`. -/
theorem c4_value_counterexample :
    eval "1+2**3-10/5*6".toList ≠ some (.ok (-1)) := by with_unfolding_all decide

/-- C4 (amended): `eval "1+2**3-10/5*6" = Ok(-3.0)` — with the left-to-right
collapsing of equal-priority chains, `1 + 2**3 - (10/5)*6 = 1 + 8 - 12 = -3`,
as the crate's own test asserts. -/
theorem c4_amended_value :
    eval "1+2**3-10/5*6".toList = some (.ok (-3)) := by with_unfolding_all decide

/-- C5: the operator priorities are Add/Sub = 0, Mul/Div = 1, Pow = 2, and
the postfix conversion pops equal-or-higher-priority operators before
pushing, making every operator, including `Pow`, left-associative:
`eval "1+2*3" = Ok 7`, `eval "2*(100+50)" = Ok 300`, and
`eval "2**3**2" = Ok 64` (the left-associative `(2**3)**2`). -/
theorem c5_priority_left_assoc :
    Operator.priority .Add = 0 ∧ Operator.priority .Sub = 0 ∧
    Operator.priority .Mul = 1 ∧ Operator.priority .Div = 1 ∧
    Operator.priority .Pow = 2 ∧
    eval "1+2*3".toList = some (.ok 7) ∧
    eval "2*(100+50)".toList = some (.ok 300) ∧
    eval "2**3**2".toList = some (.ok 64) := by
  refine ⟨rfl, rfl, rfl, rfl, rfl, by with_unfolding_all decide, by with_unfolding_all decide, by with_unfolding_all decide⟩

/-- C6 counterexample: parenthesization is not semantically transparent for
every string.  For the input `( 1 ) U+00A0` (a no-break space after the
close paren), `eval` returns `Ok 1`, but wrapping it in parentheses panics:
the wrapper shifts the whitespace run so that the tokenizer byte-slices into
the middle of the two-byte character. -/
theorem c6_wrap_counterexample :
    eval ['(', '1', ')', '\u00A0'] = some (.ok 1) ∧
    eval ('(' :: ['(', '1', ')', '\u00A0'] ++ [')']) = none := by
  refine ⟨by with_unfolding_all decide, by with_unfolding_all decide⟩

/-- C6 (amended): for inputs of single-byte characters, parenthesization is
semantically transparent: if `eval e = Ok v` then
`eval ("(" ++ e ++ ")") = Ok v`. -/
theorem c6_paren_transparent_ascii (e : List Char) (v : ℚ)
    (hA : ∀ c ∈ e, c.utf8Size = 1) (h : eval e = some (.ok v)) :
    eval ('(' :: e ++ [')']) = some (.ok v) := by
  unfold eval at h ⊢
  cases ht : tokenize e with
  | none => rw [ht] at h; exact absurd h (by simp)
  | some r =>
    cases r with
    | error e0 => rw [ht] at h; exact absurd h (by simp)
    | ok ts =>
      rw [ht] at h
      simp only [] at h
      cases hp : parse ts with
      | error e0 => rw [hp] at h; exact absurd h (by simp)
      | ok L =>
        rw [hp] at h
        simp only [Option.some.injEq] at h
        have hne : e ≠ [] := by
          intro he0
          subst he0
          rw [show tokenize ([] : List Char) = some (.ok [Token.End]) from rfl] at ht
          injection ht with ht
          injection ht with ht
          rw [← ht] at hp
          rw [show parse [Token.End] = Except.error (Error.LexerError 0) from rfl] at hp
          exact Except.noConfusion hp
        obtain ⟨body, hbody⟩ := tokenizeLoop_ends e e 0 .Initial 0 ts ht
        have hwrap := tokenize_wrap hA hne ht
        rw [hwrap]
        simp only []
        have hdl : ts.dropLast = body := by rw [hbody, List.dropLast_concat]
        have hparse : parse (Token.ParOpen :: (ts.dropLast ++ [Token.ParClose, Token.End]))
            = .ok (Lexem.ParOpen :: (L ++ [Lexem.ParClose])) := by
          rw [hdl]
          exact parse_wrap (by rw [← hbody]; exact hp)
        rw [hparse]
        simp only []
        have hbal := parse_ok_balance hp
        rw [rpnRepr_wrap hbal h, h]

theorem c6_paren_transparent_ascii_witness :
    (∀ c ∈ "1+2".toList, c.utf8Size = 1) ∧ eval "1+2".toList = some (.ok 3) ∧
    eval ('(' :: "1+2".toList ++ [')']) = some (.ok 3) :=
  ⟨by with_unfolding_all decide, by with_unfolding_all decide, c6_paren_transparent_ascii _ 3 (by with_unfolding_all decide) (by with_unfolding_all decide)⟩

/-- C7: a leading `+`/`-` at the start or right after `(` is a sign, not a
binary operator: before a number the sign is multiplied into the value, and
before `(` the lexer emits `Number(sign)` then `Operator(Mul)`; hence
`eval "-5*(-10)" = Ok 50` and `eval "-(-1)" = Ok 1`. -/
theorem c7_leading_sign :
    parse [.Operator ['-'], .ParOpen, .Operator ['-'], .Number ['1'], .ParClose, .End] =
      .ok [.Number (-1), .Operator .Mul, .ParOpen, .Number (-1), .ParClose] ∧
    eval "-5*(-10)".toList = some (.ok 50) ∧
    eval "-(-1)".toList = some (.ok 1) := by
  refine ⟨by with_unfolding_all decide, by with_unfolding_all decide, by with_unfolding_all decide⟩

/-- C8: the evaluator stage errors (always with `EvalError`) exactly when an
operator finds fewer than two operands, a paren marker occurs, or the final
stack is empty; otherwise it returns the top of the final stack, checking
only non-emptiness — extra unconsumed operands are ignored, as the concrete
sequence `[1, 2]` evaluating to `Ok 2` shows. -/
theorem c8_evaluator_characterization :
    (∀ p : List Lexem,
      (evalRpn p = .error .EvalError ↔ evalFailsSpec p 0 = true) ∧
      (∀ e, evalRpn p = .error e → e = .EvalError) ∧
      (evalFailsSpec p 0 = false →
        ∃ v s2, evalLoop p [] = .ok (v :: s2) ∧ evalRpn p = .ok v)) ∧
    evalRpn [.Number 1, .Number 2] = .ok 2 := by
  constructor
  · intro p
    have hspec := evalLoop_spec p []
    simp only [List.length_nil] at hspec
    cases hres : evalLoop p [] with
    | error e0 =>
      obtain ⟨he, hs⟩ := hspec.1 e0 hres
      subst he
      refine ⟨⟨fun _ => hs, fun _ => ?_⟩, fun e he2 => ?_, fun hfalse => ?_⟩
      · unfold evalRpn
        rw [hres]
      · unfold evalRpn at he2
        rw [hres] at he2
        simp only [] at he2
        injection he2 with he2
        exact he2.symm
      · rw [hs] at hfalse
        exact absurd hfalse (by simp)
    | ok s2 =>
      have hs := hspec.2 s2 hres
      cases s2 with
      | nil =>
        refine ⟨⟨fun _ => by simpa using hs, fun _ => ?_⟩, fun e he2 => ?_, fun hfalse => ?_⟩
        · unfold evalRpn
          rw [hres]
          rfl
        · unfold evalRpn at he2
          rw [hres] at he2
          simp only [List.head?] at he2
          injection he2 with he2
          exact he2.symm
        · rw [hfalse] at hs
          simp at hs
      | cons v s3 =>
        have hspecf : evalFailsSpec p 0 = false := by simpa using hs
        refine ⟨⟨fun herr => ?_, fun htrue => ?_⟩, fun e he2 => ?_, fun _ => ?_⟩
        · unfold evalRpn at herr
          rw [hres] at herr
          simp only [List.head?] at herr
          exact absurd herr (by simp)
        · rw [hspecf] at htrue
          exact absurd htrue (by simp)
        · unfold evalRpn at he2
          rw [hres] at he2
          simp only [List.head?] at he2
          exact absurd he2 (by simp)
        · refine ⟨v, s3, rfl, ?_⟩
          unfold evalRpn
          rw [hres]
          rfl
  · decide

theorem c8_evaluator_characterization_witness :
    evalFailsSpec [Lexem.Number 1] 0 = false ∧
    (∃ v s2, evalLoop [Lexem.Number 1] [] = .ok (v :: s2) ∧
      evalRpn [Lexem.Number 1] = .ok v) :=
  ⟨by with_unfolding_all decide,
    (c8_evaluator_characterization.1 [Lexem.Number 1]).2.2 (by with_unfolding_all decide)⟩

/-- C9 (code bug, behavioural part): for every input containing a character
outside the tokenizer's alphabet, preceded only by valid single-byte
characters, tokenization fails immediately at the first such character with
`TokenizerError` carrying its position and the character itself — as
constructed at `tokenizer.rs:37`; the declaration `lib.rs:12` gives the
variant a single `usize` field, so the crate as written does not compile. -/
theorem c9_first_invalid_char (pre : List Char) (c : Char) (rest : List Char)
    (hpre : ∀ d ∈ pre, validChar d = true ∧ d.utf8Size = 1)
    (hc : validChar c = false) :
    tokenize (pre ++ c :: rest) = some (.error (.TokenizerError pre.length c)) := by
  unfold tokenize
  have htake : ∀ d ∈ (pre ++ c :: rest).take (0 + pre.length), d.utf8Size = 1 := by
    intro d hd
    rw [Nat.zero_add] at hd
    rw [show (pre ++ c :: rest).take pre.length = pre from List.take_left pre (c :: rest)] at hd
    exact (hpre d hd).2
  have := tokenizeLoop_first_invalid (pre ++ c :: rest) hc pre rest 0 .Initial 0 []
    (by rw [List.drop_zero]) (fun d hd => (hpre d hd).1) htake (Nat.le_refl 0)
  simpa using this

theorem c9_first_invalid_char_witness :
    (∀ d ∈ ['1', '1'], validChar d = true ∧ d.utf8Size = 1) ∧ validChar ',' = false ∧
    tokenize (['1', '1'] ++ ',' :: ['3']) = some (.error (.TokenizerError 2 ',')) :=
  ⟨by decide, by decide,
    c9_first_invalid_char ['1', '1'] ',' ['3'] (by decide) (by decide)⟩

/-- C10: `eval` of the empty string and of every whitespace-only string
returns `Err (LexerError p)` (position 0 for the empty input, where the
`End` token is rejected in the `Initial` state, and position 1 otherwise,
where the whitespace run is absorbed and the following `End` is rejected);
it never returns `Ok` and never panics. -/
theorem c10_whitespace_only (l : List Char) (h : ∀ c ∈ l, rustIsWhitespace c = true) :
    eval l = some (.error (.LexerError (if l = [] then 0 else 1))) := by
  cases l with
  | nil => with_unfolding_all decide
  | cons c r =>
    rw [if_neg (by simp : ¬(c :: r : List Char) = [])]
    unfold eval tokenize
    rw [tokenizeLoop_cons, classify_ws (h c (by simp))]
    simp only []
    rw [if_pos (by simp : TokenizerState.ParseWhitespace ≠ TokenizerState.Initial)]
    simp only [yield_token]
    simp only [Option.toList_none, List.append_nil]
    rw [tokenizeLoop_ws_only (c :: r) r 1 (fun d hd => h d (by simp [hd]))]
    simp only []
    rw [show parse [Token.Whitespace (c :: r), Token.End] =
      Except.error (Error.LexerError 1) from rfl]

theorem c10_whitespace_only_witness :
    (∀ c ∈ [' '], rustIsWhitespace c = true) ∧
    eval [' '] = some (.error (.LexerError (if ([' '] : List Char) = [] then 0 else 1))) :=
  ⟨by decide, c10_whitespace_only [' '] (by decide)⟩

end SimpleCalc
